import Mathlib

/-!
Verification of the `pool_racing` BVH builder: a shallow embedding of the
PLOC bottom-up builder, the BVH2 traversal kernel, the Morton encoder and
the multi-level radix sort, with proofs about the embedded definitions.

Modelling conventions.

* `f32`/`f64` values are modelled as exact rationals (`ℚ`).  Comparisons and
  `min`/`max` on finite floats are exact under this model; rounding and
  overflow to infinity are not modelled.  The literal constant
  `f32::MAX = 2^128 - 2^104` is kept exactly, so an input whose exact cost
  exceeds `f32::MAX` behaves like the overflowing float computation at the
  comparisons against that sentinel (both sides of the comparison agree on
  `f32::MAX < cost`).
* Parallel loops (`par_map`, `par_chunks`, `par_chunks_mut`) are modelled by
  their sequential per-index / per-chunk semantics, which the specification
  requires a sequential fallback to reproduce exactly; thread counts that
  only select chunk sizes of parallel loops and never change the sequential
  result are dropped, while thread counts that change control flow (the
  tiled dispatch of the radix sort) are kept as parameters.
* A slice-indexing panic is modelled by an `Option`-valued result (`none`)
  wherever a panic is reachable from the states the theorems quantify over;
  data-dependent loops take explicit fuel, and exhausted fuel is also `none`.
* `usize` index arithmetic that can wrap (`(i as i64 + offset) as usize`) is
  modelled by exact integer arithmetic modulo `2^64`.
-/

/-- Width of `usize` arithmetic in the source. -/
def usizeMod : ℕ := 2 ^ 64

/-- The value of `f32::MAX`, kept exactly: `(2 - 2^-23) * 2^127`. -/
def f32_max : ℚ := 2 ^ 128 - 2 ^ 104

/-- The value of `f32::MIN = -f32::MAX`. -/
def f32_min : ℚ := -(2 ^ 128 - 2 ^ 104)

/-- A 3-vector of exact rationals, modelling `glam::Vec3A` (and `DVec3`). -/
structure Vec3 where
  x : ℚ
  y : ℚ
  z : ℚ
deriving DecidableEq, Repr

namespace Vec3

/-- Componentwise minimum, modelling `Vec3A::min`. -/
def vmin (a b : Vec3) : Vec3 :=
  ⟨min a.x b.x, min a.y b.y, min a.z b.z⟩

/-- Componentwise maximum, modelling `Vec3A::max`. -/
def vmax (a b : Vec3) : Vec3 :=
  ⟨max a.x b.x, max a.y b.y, max a.z b.z⟩

/-- Componentwise subtraction. -/
def sub (a b : Vec3) : Vec3 :=
  ⟨a.x - b.x, a.y - b.y, a.z - b.z⟩

/-- Componentwise addition. -/
def add (a b : Vec3) : Vec3 :=
  ⟨a.x + b.x, a.y + b.y, a.z + b.z⟩

/-- Componentwise multiplication (`glam` vector `*`). -/
def mul (a b : Vec3) : Vec3 :=
  ⟨a.x * b.x, a.y * b.y, a.z * b.z⟩

/-- Scalar multiplication. -/
def smul (s : ℚ) (a : Vec3) : Vec3 :=
  ⟨s * a.x, s * a.y, s * a.z⟩

/-- Componentwise negation. -/
def neg (a : Vec3) : Vec3 :=
  ⟨-a.x, -a.y, -a.z⟩

/-- The zero vector (`Vec3A::ZERO`, the `Default` value). -/
def zero : Vec3 := ⟨0, 0, 0⟩

/-- `v.max_element`-style fold used by the slab test: maximum of the
three components. -/
def maxElem (a : Vec3) : ℚ := max a.x (max a.y a.z)

/-- Minimum of the three components. -/
def minElem (a : Vec3) : ℚ := min a.x (min a.y a.z)

end Vec3

/-- `src/src/aabb.rs`: an axis-aligned bounding box given by its `min` and
`max` corner points. -/
structure Aabb where
  min : Vec3
  max : Vec3
deriving DecidableEq, Repr

namespace Aabb

/-- `Aabb::from_point`. -/
def from_point (p : Vec3) : Aabb := ⟨p, p⟩

/-- `Aabb::union`: componentwise min of mins and max of maxes. -/
def union (a o : Aabb) : Aabb :=
  ⟨a.min.vmin o.min, a.max.vmax o.max⟩

/-- `Aabb::extend`: union with the one-point box of `p`. -/
def extend (a : Aabb) (p : Vec3) : Aabb :=
  a.union (from_point p)

/-- `Aabb::diagonal`. -/
def diagonal (a : Aabb) : Vec3 := a.max.sub a.min

/-- `Aabb::center`: `(max + min) * 0.5`. -/
def center (a : Aabb) : Vec3 := (a.max.add a.min).smul (1 / 2)

/-- `Aabb::half_area`: `(dx + dy) * dz + dx * dy` of the diagonal. -/
def half_area (a : Aabb) : ℚ :=
  (a.diagonal.x + a.diagonal.y) * a.diagonal.z + a.diagonal.x * a.diagonal.y

/-- `Aabb::empty`: min at `f32::MAX`, max at `f32::MIN`. -/
def empty : Aabb :=
  ⟨⟨f32_max, f32_max, f32_max⟩, ⟨f32_min, f32_min, f32_min⟩⟩

/-- The `Default` AABB (`glam` zero vectors). -/
def zero : Aabb := ⟨Vec3.zero, Vec3.zero⟩

end Aabb

/-- `src/src/bvh.rs`: a BVH2 node, an AABB plus a signed child/leaf index
(negative for a leaf holding primitive `-index - 1`). -/
structure Bvh2Node where
  aabb : Aabb
  index : ℤ
deriving DecidableEq, Repr

/-- The `Default` node. -/
def Bvh2Node.default : Bvh2Node := ⟨Aabb.zero, 0⟩

/-- `src/src/ploc.rs` (merge-direction pass): the merge cost of two
neighbouring nodes, `union(a, b).half_area()`. -/
def node_pair_cost (a b : Bvh2Node) : ℚ :=
  (a.aabb.union b.aabb).half_area

/-- The list `cost[i] = node_pair_cost current[i] current[i+1]` for
`i < |current| - 1`. -/
def merge_costs (current : List Bvh2Node) : List ℚ :=
  (current.zip current.tail).map fun p => node_pair_cost p.1 p.2

/-- The direction loop of `build_ploc` (`SequentialOptimized` branch,
`ploc.rs` lines 179-186): walk the costs carrying `last_cost`, emitting
`-1` when `last_cost < cost` and `1` otherwise. -/
def merge_dirs_go : List ℚ → ℚ → List ℤ
  | [], _ => []
  | c :: rest, last_cost => (if last_cost < c then -1 else 1) :: merge_dirs_go rest c

/-- The full merge-direction pass of `build_ploc` (`ploc.rs` lines
148-196): directions for indices `0 .. m-2` from the cost walk seeded with
`last_cost = f32::MAX`, and a final forced `-1` at index `m - 1`. -/
def calculate_merge_dirs (current : List Bvh2Node) : List ℤ :=
  merge_dirs_go (merge_costs current) f32_max ++ [-1]

theorem merge_dirs_go_length (cs : List ℚ) (lc : ℚ) :
    (merge_dirs_go cs lc).length = cs.length := by
  induction cs generalizing lc with
  | nil => rfl
  | cons c rest ih => simp [merge_dirs_go, ih]

theorem merge_costs_length (current : List Bvh2Node) :
    (merge_costs current).length = current.length - 1 := by
  unfold merge_costs
  rw [List.length_map, List.length_zip, List.length_tail]
  omega

theorem calculate_merge_dirs_length (current : List Bvh2Node) :
    (calculate_merge_dirs current).length = max current.length 1 := by
  unfold calculate_merge_dirs
  rw [List.length_append, merge_dirs_go_length, merge_costs_length]
  simp
  omega

theorem merge_dirs_go_getD (cs : List ℚ) (lc : ℚ) (i : ℕ) (h : i < cs.length) :
    (merge_dirs_go cs lc).getD i 0 =
      if (if i = 0 then lc else cs.getD (i - 1) 0) < cs.getD i 0 then -1 else 1 := by
  induction cs generalizing lc i with
  | nil => simp at h
  | cons c rest ih =>
    match i with
    | 0 => simp [merge_dirs_go]
    | (j+1) =>
      simp only [merge_dirs_go, List.getD_cons_succ]
      rw [ih c j (by simpa using h)]
      match j with
      | 0 => simp
      | (k+1) => simp

theorem merge_costs_getD (current : List Bvh2Node) (i : ℕ)
    (h : i + 1 < current.length) :
    (merge_costs current).getD i 0 =
      node_pair_cost (current.getD i Bvh2Node.default)
        (current.getD (i + 1) Bvh2Node.default) := by
  unfold merge_costs
  have hz : i < (current.zip current.tail).length := by
    rw [List.length_zip, List.length_tail]; omega
  rw [List.getD_eq_getElem _ _ (by simpa using hz)]
  rw [List.getElem_map]
  rw [List.getElem_zip]
  congr 1
  · exact (List.getD_eq_getElem _ _ (by omega)).symm
  · have : current.tail.length = current.length - 1 := List.length_tail _
    rw [List.getElem_tail]
    exact (List.getD_eq_getElem _ _ (by omega)).symm

theorem calculate_merge_dirs_getD_last (current : List Bvh2Node)
    (h2 : 2 ≤ current.length) :
    (calculate_merge_dirs current).getD (current.length - 1) 0 = -1 := by
  unfold calculate_merge_dirs
  have hlen : (merge_dirs_go (merge_costs current) f32_max).length = current.length - 1 := by
    rw [merge_dirs_go_length, merge_costs_length]
  rw [List.getD_append_right _ _ _ _ (by omega), hlen]
  simp

theorem calculate_merge_dirs_getD_lt (current : List Bvh2Node) (i : ℕ)
    (h : i + 1 < current.length) :
    (calculate_merge_dirs current).getD i 0 =
      (merge_dirs_go (merge_costs current) f32_max).getD i 0 := by
  unfold calculate_merge_dirs
  have hlen : (merge_dirs_go (merge_costs current) f32_max).length = current.length - 1 := by
    rw [merge_dirs_go_length, merge_costs_length]
  refine List.getD_append _ _ _ _ ?_
  rw [hlen]
  omega

/-- A node whose box spans `±f32::MAX` on every axis.  Its pairing cost with
itself is `12 * f32_max ^ 2`, far above `f32::MAX`; in the `f32` source this
cost overflows to `+∞`, and in both cases `f32::MAX < cost` holds. -/
def huge_node : Bvh2Node :=
  ⟨⟨⟨-f32_max, -f32_max, -f32_max⟩, ⟨f32_max, f32_max, f32_max⟩⟩, -1⟩

/-- C4, counterexample: on a two-node pass whose first cost exceeds the
sentinel `f32::MAX` (in `f32` it overflows to `+∞`), `merge[0]` is `-1`, not
the `+1` the claim says it always is: the sentinel is `f32::MAX`, not a true
`+∞`. -/
theorem claim_C4_cex :
    (calculate_merge_dirs [huge_node, huge_node]).getD 0 0 ≠ 1 := by
  norm_num [calculate_merge_dirs, merge_costs, merge_dirs_go, huge_node,
    node_pair_cost, Aabb.union, Aabb.half_area, Aabb.diagonal, Vec3.vmin,
    Vec3.vmax, Vec3.sub, f32_max, List.zip]

/-- C4 (amended): in a merge-direction pass over `m ≥ 2` nodes, for
`1 ≤ i < m - 1` the direction is `-1` exactly when `cost[i-1] < cost[i]` and
`+1` otherwise (ties pick `+1`); `merge[0]` compares `cost[0]` against the
sentinel `f32::MAX` (so it is `+1` unless `cost[0]` exceeds `f32::MAX`,
which in `f32` means the cost overflowed); and `merge[m-1] = -1`. -/
theorem claim_C4_merge_directions (current : List Bvh2Node)
    (h2 : 2 ≤ current.length) :
    ((calculate_merge_dirs current).getD (current.length - 1) 0 = -1) ∧
    ((calculate_merge_dirs current).getD 0 0 =
      if f32_max < (merge_costs current).getD 0 0 then -1 else 1) ∧
    (∀ i, 1 ≤ i → i + 1 < current.length →
      (calculate_merge_dirs current).getD i 0 =
        if (merge_costs current).getD (i - 1) 0 < (merge_costs current).getD i 0
        then -1 else 1) := by
  refine ⟨calculate_merge_dirs_getD_last current h2, ?_, ?_⟩
  · rw [calculate_merge_dirs_getD_lt current 0 (by omega)]
    rw [merge_dirs_go_getD _ _ 0 (by rw [merge_costs_length]; omega)]
    simp
  · intro i h1 hi
    rw [calculate_merge_dirs_getD_lt current i hi]
    rw [merge_dirs_go_getD _ _ i (by rw [merge_costs_length]; omega)]
    have : ¬ i = 0 := by omega
    simp [this]

/-- A unit cube with min corner `p`, used as a concrete witness input. -/
def unit_cube_node (p : Vec3) (id : ℤ) : Bvh2Node :=
  ⟨⟨p, ⟨p.x + 1, p.y + 1, p.z + 1⟩⟩, id⟩

def w4_list : List Bvh2Node :=
  [unit_cube_node ⟨0, 0, 0⟩ (-1), unit_cube_node ⟨2, 0, 0⟩ (-2),
   unit_cube_node ⟨7, 0, 0⟩ (-3)]

theorem claim_C4_witness :
    2 ≤ w4_list.length ∧
    (calculate_merge_dirs w4_list).getD (w4_list.length - 1) 0 = -1 ∧
    (calculate_merge_dirs w4_list).getD 0 0 =
      (if f32_max < (merge_costs w4_list).getD 0 0 then -1 else 1) ∧
    (calculate_merge_dirs w4_list).getD 1 0 =
      (if (merge_costs w4_list).getD 0 0 < (merge_costs w4_list).getD 1 0
       then -1 else 1) :=
  ⟨by decide, (claim_C4_merge_directions w4_list (by decide)).1,
    (claim_C4_merge_directions w4_list (by decide)).2.1,
    (claim_C4_merge_directions w4_list (by decide)).2.2 1 (by decide) (by decide)⟩

/-- `(i as i64) as usize`: reinterpret a (possibly negative) 64-bit signed
value as an unsigned index, i.e. reduce modulo `2^64`. -/
def i64_as_usize (i : ℤ) : ℕ := (i % (usizeMod : ℤ)).toNat

/-- `n as i32` applied to a `usize`: two's-complement wrap into
`[-2^31, 2^31)`. -/
def usize_to_i32 (n : ℕ) : ℤ :=
  if n % 2 ^ 32 < 2 ^ 31 then (n % 2 ^ 32 : ℤ) else (n % 2 ^ 32 : ℤ) - 2 ^ 32

/-- The mutable state of one sequential merge pass of `build_ploc`
(`ploc.rs` lines 200-249): the `next_nodes` accumulator, the final `nodes`
array being filled from the top, and `insert_index`. -/
structure MergeState where
  next : List Bvh2Node
  nodes : List Bvh2Node
  insert_index : ℕ
deriving DecidableEq, Repr

/-- One sequential merge pass of `build_ploc` (`ploc.rs` lines 200-249),
walking `index` over `current`.  A `none` result models a panic: an
out-of-bounds `merge[best_index]` lookup (reachable via the wrapped
`(index as i64 + offset) as usize` when `merge[index]` is `-1` at
`index = 0`), a `usize` underflow of `insert_index -= 2` followed by an
out-of-bounds write, or an out-of-bounds `nodes` write. -/
def merge_pass_go (current : List Bvh2Node) (merge : List ℤ) :
    ℕ → MergeState → Option MergeState
  | index, state =>
    if h : index < current.length then
      match merge[index]? with
      | none => none
      | some offset =>
        let best := i64_as_usize ((index : ℤ) + offset)
        match merge[best]? with
        | none => none
        | some bm =>
          if (best : ℤ) + bm ≠ (index : ℤ) then
            merge_pass_go current merge (index + 1)
              { state with next := state.next ++ [current[index]] }
          else if best > index then
            merge_pass_go current merge (index + 1) state
          else
            if state.insert_index < 2 then none
            else
              let ii := state.insert_index - 2
              let left := current[index]
              let right := current.getD best Bvh2Node.default
              if ii + 1 < state.nodes.length then
                merge_pass_go current merge
                  (if offset = 1 then index + 2 else index + 1)
                  { next := state.next ++
                      [⟨left.aabb.union right.aabb, usize_to_i32 ii⟩],
                    nodes := (state.nodes.set ii left).set (ii + 1) right,
                    insert_index := ii }
              else none
    else
      some state
  termination_by index _ => current.length - index
  decreasing_by
    all_goals simp_wf
    all_goals first
      | omega
      | (split <;> omega)

/-- A full sequential merge pass starting at `index = 0` with an empty
`next_nodes` accumulator. -/
def merge_pass (current : List Bvh2Node) (merge : List ℤ)
    (nodes : List Bvh2Node) (insert_index : ℕ) : Option MergeState :=
  merge_pass_go current merge 0 ⟨[], nodes, insert_index⟩

theorem i64_as_usize_ofNat (n : ℕ) (h : n < usizeMod) : i64_as_usize (n : ℤ) = n := by
  unfold i64_as_usize
  rw [Int.emod_eq_of_lt (by positivity) (by exact_mod_cast h)]
  simp

def c3_node_a : Bvh2Node := ⟨⟨⟨0, 0, 0⟩, ⟨1, 1, 1⟩⟩, -1⟩

def c3_node_b : Bvh2Node := ⟨⟨⟨2, 0, 0⟩, ⟨3, 1, 1⟩⟩, -2⟩

/-- C3, counterexample: on `current = [a, b]` with directions `[+1, -1]`,
the unique mutual pair is seen from both sides; the claim says the pass
emits from the side `i = 0` (where `best = 1 > i`) and writes
`current[0] = a` into `nodes[insert_index]`.  The code does the opposite:
it skips `i = 0` and emits at `i = 1` (where `best = 0 < i`), writing
`current[1] = b` into `nodes[insert_index]` - so the first written slot
holds `b`, not `a`. -/
theorem claim_C3_cex :
    (merge_pass [c3_node_a, c3_node_b] [1, -1]
        [Bvh2Node.default, Bvh2Node.default, Bvh2Node.default] 3).map
      (fun s => s.nodes.getD 1 Bvh2Node.default) = some c3_node_b ∧
    c3_node_b ≠ c3_node_a := by
  constructor
  · norm_num [merge_pass, merge_pass_go, i64_as_usize, usize_to_i32, usizeMod,
      c3_node_a, c3_node_b, Bvh2Node.default, Aabb.union, Aabb.zero, Vec3.vmin,
      Vec3.vmax, Vec3.zero]
  · norm_num [c3_node_a, c3_node_b]

/-- C3 (amended): at an index `i` of a merge pass whose direction `off` is
`-1` or `+1` and whose best neighbour `best = (i + off) as usize` agrees
(`best + merge[best] == i`): if `best > i` the index is only skipped (the
pair is emitted later, from the side with the larger index); if `best < i`
then `off = -1` and the pass emits the pair, decrementing `insert_index` by
2, writing `current[i]` into `nodes[insert_index]` and `current[best]` into
`nodes[insert_index + 1]`, pushing the internal node
`{aabb: union, index: insert_index}` into `next`, and advancing `i` by 1
(the `i += 2` branch requires `merge[i] == +1` and is unreachable at an
emission). -/
theorem claim_C3_pair_emission (current : List Bvh2Node) (merge : List ℤ)
    (index : ℕ) (state : MergeState) (off bm : ℤ)
    (hidx : index < current.length)
    (h64 : current.length < usizeMod)
    (hoff : merge[index]? = some off)
    (hpm : off = -1 ∨ off = 1)
    (hbm : merge[i64_as_usize ((index : ℤ) + off)]? = some bm)
    (hmut : (i64_as_usize ((index : ℤ) + off) : ℤ) + bm = (index : ℤ)) :
    (i64_as_usize ((index : ℤ) + off) > index →
      merge_pass_go current merge index state =
        merge_pass_go current merge (index + 1) state) ∧
    (i64_as_usize ((index : ℤ) + off) < index →
      off = -1 ∧
      (2 ≤ state.insert_index →
        state.insert_index - 1 < state.nodes.length →
        merge_pass_go current merge index state =
          merge_pass_go current merge (index + 1)
            { next := state.next ++
                [⟨(current.getD index Bvh2Node.default).aabb.union
                    (current.getD (i64_as_usize ((index : ℤ) + off))
                      Bvh2Node.default).aabb,
                  usize_to_i32 (state.insert_index - 2)⟩],
              nodes := (state.nodes.set (state.insert_index - 2)
                          (current.getD index Bvh2Node.default)).set
                        (state.insert_index - 1)
                        (current.getD (i64_as_usize ((index : ℤ) + off))
                          Bvh2Node.default),
              insert_index := state.insert_index - 2 })) := by
  constructor
  · intro hgt
    rw [merge_pass_go]
    rw [dif_pos hidx, hoff]
    simp only []
    rw [hbm]
    simp only [hmut, if_pos hgt]
    simp
  · intro hlt
    have hoffm : off = -1 := by
      rcases hpm with h | h
      · exact h
      · exfalso
        rw [h] at hlt
        have : ((index : ℤ) + 1) = ((index + 1 : ℕ) : ℤ) := by push_cast; ring
        rw [this, i64_as_usize_ofNat (index + 1) (by omega)] at hlt
        omega
    refine ⟨hoffm, fun h2 hw => ?_⟩
    rw [merge_pass_go]
    rw [dif_pos hidx, hoff]
    simp only [hbm, hmut, ne_eq, not_true_eq_false, if_false]
    rw [if_neg (by omega : ¬ i64_as_usize ((index : ℤ) + off) > index)]
    rw [if_neg (by omega : ¬ state.insert_index < 2)]
    rw [if_pos (by omega : state.insert_index - 2 + 1 < state.nodes.length)]
    rw [if_neg (by rw [hoffm]; decide : ¬ off = 1)]
    congr 1
    have he : state.insert_index - 2 + 1 = state.insert_index - 1 := by omega
    rw [List.getD_eq_getElem current Bvh2Node.default hidx, he]

theorem claim_C3_witness :
    i64_as_usize (((1 : ℕ) : ℤ) + (-1)) < 1 ∧
    merge_pass_go [c3_node_a, c3_node_b] [1, -1] 1
        ⟨[], [Bvh2Node.default, Bvh2Node.default, Bvh2Node.default], 3⟩ =
      merge_pass_go [c3_node_a, c3_node_b] [1, -1] (1 + 1)
        { next := [] ++
            [⟨([c3_node_a, c3_node_b].getD 1 Bvh2Node.default).aabb.union
                ([c3_node_a, c3_node_b].getD
                  (i64_as_usize (((1 : ℕ) : ℤ) + (-1))) Bvh2Node.default).aabb,
              usize_to_i32 (3 - 2)⟩],
          nodes := ([Bvh2Node.default, Bvh2Node.default, Bvh2Node.default].set (3 - 2)
                      ([c3_node_a, c3_node_b].getD 1 Bvh2Node.default)).set (3 - 1)
                    ([c3_node_a, c3_node_b].getD
                      (i64_as_usize (((1 : ℕ) : ℤ) + (-1))) Bvh2Node.default),
          insert_index := 3 - 2 } :=
  ⟨by decide, ((claim_C3_pair_emission [c3_node_a, c3_node_b] [1, -1] 1
      ⟨[], [Bvh2Node.default, Bvh2Node.default, Bvh2Node.default], 3⟩ (-1) 1
      (by decide) (by decide) (by decide) (Or.inl rfl) (by decide)
      (by decide)).2 (by decide)).2 (by decide) (by decide)⟩

/-- Coordinate bound used for the no-overflow hypotheses: with every
coordinate in `[-2^60, 2^60]`, every merge cost is at most `12 * 2^120`,
comfortably below `f32::MAX`, so no `f32` computation in the merge loop
overflows and the exact-rational model agrees with the float code. -/
def coordBound : ℚ := 1152921504606846976

theorem coordBound_eq : coordBound = 2 ^ 60 := by norm_num [coordBound]

/-- All three components within `[-coordBound, coordBound]`. -/
def vec_bounded (v : Vec3) : Prop :=
  |v.x| ≤ coordBound ∧ |v.y| ≤ coordBound ∧ |v.z| ≤ coordBound

/-- Both corners bounded. -/
def aabb_bounded (a : Aabb) : Prop := vec_bounded a.min ∧ vec_bounded a.max

/-- A node with a bounded box. -/
def node_bounded (n : Bvh2Node) : Prop := aabb_bounded n.aabb

theorem abs_min_le {a b B : ℚ} (ha : |a| ≤ B) (hb : |b| ≤ B) :
    |min a b| ≤ B := by
  rw [abs_le] at *
  constructor
  · exact le_min ha.1 hb.1
  · exact le_trans (min_le_left a b) ha.2

theorem abs_max_le {a b B : ℚ} (ha : |a| ≤ B) (hb : |b| ≤ B) :
    |max a b| ≤ B := by
  rw [abs_le] at *
  constructor
  · exact le_trans ha.1 (le_max_left a b)
  · exact max_le ha.2 hb.2

theorem vmin_bounded {a b : Vec3} (ha : vec_bounded a) (hb : vec_bounded b) :
    vec_bounded (a.vmin b) :=
  ⟨abs_min_le ha.1 hb.1, abs_min_le ha.2.1 hb.2.1, abs_min_le ha.2.2 hb.2.2⟩

theorem vmax_bounded {a b : Vec3} (ha : vec_bounded a) (hb : vec_bounded b) :
    vec_bounded (a.vmax b) :=
  ⟨abs_max_le ha.1 hb.1, abs_max_le ha.2.1 hb.2.1, abs_max_le ha.2.2 hb.2.2⟩

theorem union_bounded {a b : Aabb} (ha : aabb_bounded a) (hb : aabb_bounded b) :
    aabb_bounded (a.union b) :=
  ⟨vmin_bounded ha.1 hb.1, vmax_bounded ha.2 hb.2⟩

theorem half_area_le_of_bounded {a : Aabb} (ha : aabb_bounded a) :
    a.half_area ≤ f32_max := by
  obtain ⟨⟨h1, h2, h3⟩, ⟨h4, h5, h6⟩⟩ := ha
  have hdx : |a.diagonal.x| ≤ 2 * coordBound := by
    calc |a.max.x - a.min.x| = |a.max.x + -a.min.x| := by ring_nf
    _ ≤ |a.max.x| + |(-a.min.x)| := abs_add _ _
    _ ≤ 2 * coordBound := by rw [abs_neg]; linarith
  have hdy : |a.diagonal.y| ≤ 2 * coordBound := by
    calc |a.max.y - a.min.y| = |a.max.y + -a.min.y| := by ring_nf
    _ ≤ |a.max.y| + |(-a.min.y)| := abs_add _ _
    _ ≤ 2 * coordBound := by rw [abs_neg]; linarith
  have hdz : |a.diagonal.z| ≤ 2 * coordBound := by
    calc |a.max.z - a.min.z| = |a.max.z + -a.min.z| := by ring_nf
    _ ≤ |a.max.z| + |(-a.min.z)| := abs_add _ _
    _ ≤ 2 * coordBound := by rw [abs_neg]; linarith
  have habs : |a.half_area| ≤ 12 * coordBound ^ 2 := by
    unfold Aabb.half_area
    calc |(a.diagonal.x + a.diagonal.y) * a.diagonal.z +
            a.diagonal.x * a.diagonal.y|
        ≤ |(a.diagonal.x + a.diagonal.y) * a.diagonal.z| +
            |a.diagonal.x * a.diagonal.y| := abs_add _ _
    _ = |a.diagonal.x + a.diagonal.y| * |a.diagonal.z| +
          |a.diagonal.x| * |a.diagonal.y| := by rw [abs_mul, abs_mul]
    _ ≤ (2 * coordBound + 2 * coordBound) * (2 * coordBound) +
          (2 * coordBound) * (2 * coordBound) := by
        have hxy : |a.diagonal.x + a.diagonal.y| ≤ 2 * coordBound + 2 * coordBound :=
          le_trans (abs_add _ _) (by linarith)
        have h0 : (0 : ℚ) ≤ |a.diagonal.z| := abs_nonneg _
        have h0x : (0 : ℚ) ≤ |a.diagonal.x| := abs_nonneg _
        have hcb : (0 : ℚ) ≤ 2 * coordBound := by norm_num [coordBound]
        gcongr
    _ = 12 * coordBound ^ 2 := by ring
  have : a.half_area ≤ |a.half_area| := le_abs_self _
  have hfin : (12 : ℚ) * coordBound ^ 2 ≤ f32_max := by
    norm_num [coordBound, f32_max]
  linarith

theorem node_pair_cost_le {a b : Bvh2Node} (ha : node_bounded a)
    (hb : node_bounded b) : node_pair_cost a b ≤ f32_max :=
  half_area_le_of_bounded (union_bounded ha hb)

theorem merge_dirs_go_mem (cs : List ℚ) (lc : ℚ) :
    ∀ x ∈ merge_dirs_go cs lc, x = -1 ∨ x = 1 := by
  induction cs generalizing lc with
  | nil => intro x hx; simp [merge_dirs_go] at hx
  | cons c rest ih =>
    intro x hx
    simp only [merge_dirs_go, List.mem_cons] at hx
    rcases hx with h | h
    · split at h
      · exact Or.inl h
      · exact Or.inr h
    · exact ih c x h

theorem calculate_merge_dirs_mem (current : List Bvh2Node) :
    ∀ x ∈ calculate_merge_dirs current, x = -1 ∨ x = 1 := by
  intro x hx
  unfold calculate_merge_dirs at hx
  rcases List.mem_append.mp hx with h | h
  · exact merge_dirs_go_mem _ _ x h
  · simp at h
    exact Or.inl h

theorem calculate_merge_dirs_getD_pm (current : List Bvh2Node) (i : ℕ)
    (h : i < current.length) :
    (calculate_merge_dirs current).getD i 0 = -1 ∨
    (calculate_merge_dirs current).getD i 0 = 1 := by
  have hi : i < (calculate_merge_dirs current).length := by
    rw [calculate_merge_dirs_length]; omega
  rw [List.getD_eq_getElem _ _ hi]
  exact calculate_merge_dirs_mem current _ (List.getElem_mem hi)

theorem getD_mem_of_lt (l : List Bvh2Node) (i : ℕ) (h : i < l.length) :
    l.getD i Bvh2Node.default ∈ l := by
  rw [List.getD_eq_getElem _ _ h]
  exact List.getElem_mem h

theorem calculate_merge_dirs_head (current : List Bvh2Node)
    (h2 : 2 ≤ current.length) (hb : ∀ n ∈ current, node_bounded n) :
    (calculate_merge_dirs current).getD 0 0 = 1 := by
  rw [calculate_merge_dirs_getD_lt current 0 (by omega)]
  rw [merge_dirs_go_getD _ _ 0 (by rw [merge_costs_length]; omega)]
  rw [merge_costs_getD current 0 (by omega)]
  have hm0 : current.getD 0 Bvh2Node.default ∈ current :=
    getD_mem_of_lt current 0 (by omega)
  have hm1 : current.getD (0 + 1) Bvh2Node.default ∈ current :=
    getD_mem_of_lt current 1 (by omega)
  have hle := node_pair_cost_le (hb _ hm0) (hb _ hm1)
  simp only [eq_self_iff_true, if_true]
  rw [if_neg (by linarith)]

/-- The index `i` is an emission index of a `±1` direction list: `i ≥ 1`,
`merge[i] = -1` and `merge[i-1] = +1`, which is exactly a mutual match seen
from the larger side (the side the code emits from). -/
def emit_at (merge : List ℤ) (index : ℕ) : Bool :=
  decide (1 ≤ index) && decide (merge.getD index 0 = -1) &&
    decide (merge.getD (index - 1) 0 = 1)

/-- Number of emission indices in `[index, m)`. -/
def emit_from (merge : List ℤ) (m index : ℕ) : ℕ :=
  if index < m then
    (if emit_at merge index then 1 else 0) + emit_from merge m (index + 1)
  else 0
  termination_by m - index

theorem emit_from_ge (merge : List ℤ) (m : ℕ) :
    ∀ index, index ≥ m → emit_from merge m index = 0 := by
  intro index h
  rw [emit_from, if_neg (by omega)]

theorem emit_from_step (merge : List ℤ) (m index : ℕ) (h : index < m) :
    emit_from merge m index =
      (if emit_at merge index then 1 else 0) + emit_from merge m (index + 1) := by
  rw [emit_from, if_pos h]

/-- No two adjacent emissions, hence at most every other index emits. -/
theorem emit_from_le (merge : List ℤ) (m : ℕ) :
    ∀ k index, m - index ≤ k → 2 * emit_from merge m index ≤ m - index + 1 := by
  intro k
  induction k with
  | zero =>
    intro index h
    rw [emit_from_ge merge m index (by omega)]
    omega
  | succ k ih =>
    intro index h
    by_cases hi : index < m
    · rw [emit_from_step merge m index hi]
      by_cases he : emit_at merge index
      · rw [if_pos he]
        by_cases hi1 : index + 1 < m
        · rw [emit_from_step merge m (index + 1) hi1]
          have hnot : emit_at merge (index + 1) = false := by
            unfold emit_at at he ⊢
            simp only [Bool.and_eq_true, decide_eq_true_eq] at he
            simp only [Bool.and_eq_false_iff, decide_eq_false_iff_not]
            obtain ⟨⟨_, hval⟩, _⟩ := he
            right
            simp only [Nat.add_sub_cancel]
            omega
          rw [hnot]
          simp only [Bool.false_eq_true, if_false, zero_add]
          have := ih (index + 1 + 1) (by omega)
          omega
        · rw [emit_from_ge merge m (index + 1) (by omega)]
          omega
      · rw [if_neg he]
        have := ih (index + 1) (by omega)
        omega
    · rw [emit_from_ge merge m index (by omega)]
      omega

/-- If some index in `[index, m)` is an emission index, `emit_from` is
positive. -/
theorem emit_from_pos (merge : List ℤ) (m : ℕ) :
    ∀ k index i, m - index ≤ k → index ≤ i → i < m → emit_at merge i →
      1 ≤ emit_from merge m index := by
  intro k
  induction k with
  | zero => intro index i h hle hlt _; omega
  | succ k ih =>
    intro index i h hle hlt he
    rcases Nat.eq_or_lt_of_le hle with heq | hlt2
    · subst heq
      rw [emit_from_step merge m index (by omega), if_pos he]
      omega
    · rw [emit_from_step merge m index (by omega)]
      have := ih (index + 1) i (by omega) (by omega) hlt he
      omega

/-- A `±1` list that starts with `+1` and ends with `-1` has an emission
index: the first `-1` is preceded by a `+1`. -/
theorem exists_emit_index (merge : List ℤ) (m : ℕ)
    (hlen : merge.length = m) (h2 : 2 ≤ m)
    (hpm : ∀ i, i < m → merge.getD i 0 = -1 ∨ merge.getD i 0 = 1)
    (h0 : merge.getD 0 0 = 1) (hlast : merge.getD (m - 1) 0 = -1) :
    ∃ i, 1 ≤ i ∧ i < m ∧ emit_at merge i := by
  have hex : ∃ j, j < m ∧ merge.getD j 0 = -1 := ⟨m - 1, by omega, hlast⟩
  obtain ⟨hjm, hjv⟩ := Nat.find_spec hex
  have hj1 : 1 ≤ Nat.find hex := by
    by_contra hc
    push_neg at hc
    have h00 := hjv
    rw [Nat.lt_one_iff.mp hc] at h00
    rw [h0] at h00
    exact absurd h00 (by decide)
  refine ⟨Nat.find hex, hj1, hjm, ?_⟩
  have hnm : ¬ (Nat.find hex - 1 < m ∧ merge.getD (Nat.find hex - 1) 0 = -1) :=
    Nat.find_min hex (by omega)
  have hprev : merge.getD (Nat.find hex - 1) 0 = 1 := by
    rcases hpm (Nat.find hex - 1) (by omega) with h | h
    · exact absurd ⟨by omega, h⟩ hnm
    · exact h
  unfold emit_at
  simp only [Bool.and_eq_true, decide_eq_true_eq]
  exact ⟨⟨hj1, hjv⟩, hprev⟩

theorem vmin_comm (a b : Vec3) : a.vmin b = b.vmin a := by
  simp [Vec3.vmin, min_comm]

theorem vmax_comm (a b : Vec3) : a.vmax b = b.vmax a := by
  simp [Vec3.vmax, max_comm]

theorem vmin_assoc (a b c : Vec3) : (a.vmin b).vmin c = a.vmin (b.vmin c) := by
  simp [Vec3.vmin, min_assoc]

theorem vmax_assoc (a b c : Vec3) : (a.vmax b).vmax c = a.vmax (b.vmax c) := by
  simp [Vec3.vmax, max_assoc]

theorem union_comm (a b : Aabb) : a.union b = b.union a := by
  simp [Aabb.union, vmin_comm, vmax_comm]

theorem union_assoc (a b c : Aabb) :
    (a.union b).union c = a.union (b.union c) := by
  simp [Aabb.union, vmin_assoc, vmax_assoc]

instance : Std.Commutative Aabb.union := ⟨union_comm⟩

instance : Std.Associative Aabb.union := ⟨union_assoc⟩

/-- Union of a (multi)set of AABBs, seeded with `Aabb::empty` like the
`total_aabb` accumulation of `build_ploc` phase A. -/
def ms_union (s : Multiset Aabb) : Aabb := Multiset.fold Aabb.union Aabb.empty s

theorem ms_union_cons (a : Aabb) (s : Multiset Aabb) :
    ms_union (a ::ₘ s) = a.union (ms_union s) :=
  Multiset.fold_cons_left _ _ _ _

/-- Decoded primitive ids of the leaf nodes of a list, in order. -/
def leaf_id_list (l : List Bvh2Node) : List ℤ :=
  l.filterMap fun n => if n.index < 0 then some (-n.index - 1) else none

/-- Decoded primitive ids of the leaf nodes, as a multiset. -/
def leaf_ids (l : List Bvh2Node) : Multiset ℤ := (leaf_id_list l : List ℤ)

theorem leaf_ids_nil : leaf_ids [] = 0 := rfl

theorem leaf_ids_cons (a : Bvh2Node) (l : List Bvh2Node) :
    leaf_ids (a :: l) =
      (if a.index < 0 then ({-a.index - 1} : Multiset ℤ) else 0) + leaf_ids l := by
  unfold leaf_ids leaf_id_list
  by_cases h : a.index < 0
  · simp [List.filterMap_cons, h]
  · simp [List.filterMap_cons, h]

theorem leaf_ids_append (l l' : List Bvh2Node) :
    leaf_ids (l ++ l') = leaf_ids l + leaf_ids l' := by
  unfold leaf_ids leaf_id_list
  simp [List.filterMap_append]

/-- Multiset of the AABBs of a node list. -/
def aabbs_of (l : List Bvh2Node) : Multiset Aabb := (l.map Bvh2Node.aabb : List Aabb)

theorem aabbs_of_nil : aabbs_of [] = 0 := rfl

theorem aabbs_of_cons (a : Bvh2Node) (l : List Bvh2Node) :
    aabbs_of (a :: l) = a.aabb ::ₘ aabbs_of l := rfl

theorem aabbs_of_append (l l' : List Bvh2Node) :
    aabbs_of (l ++ l') = aabbs_of l + aabbs_of l' := by
  unfold aabbs_of
  simp

theorem set_drop_eq (l : List Bvh2Node) (p : ℕ) (x : Bvh2Node)
    (h : p < l.length) :
    (l.set p x).drop p = x :: l.drop (p + 1) := by
  rw [List.set_eq_take_cons_drop x h]
  rw [List.drop_append_eq_append_drop]
  rw [List.length_take]
  have h1 : min p l.length = p := by omega
  rw [h1]
  simp

theorem set_set_drop_eq (l : List Bvh2Node) (p : ℕ) (x y : Bvh2Node)
    (h : p + 1 < l.length) :
    ((l.set p x).set (p + 1) y).drop p = x :: y :: l.drop (p + 2) := by
  have hcomm : (l.set p x).set (p + 1) y = (l.set (p + 1) y).set p x :=
    List.set_comm _ _ _ (by omega)
  rw [hcomm]
  rw [set_drop_eq _ p x (by simpa using by omega)]
  rw [set_drop_eq l (p + 1) y h]

theorem getElem?_eq_some_getD (merge : List ℤ) (i : ℕ) (h : i < merge.length) :
    merge[i]? = some (merge.getD i 0) := by
  rw [List.getElem?_eq_getElem h, List.getD_eq_getElem _ _ h]

theorem merge_pass_go_ge (current : List Bvh2Node) (merge : List ℤ)
    (index : ℕ) (st : MergeState) (h : ¬ index < current.length) :
    merge_pass_go current merge index st = some st := by
  rw [merge_pass_go, dif_neg h]

theorem merge_pass_go_push (current : List Bvh2Node) (merge : List ℤ)
    (index : ℕ) (st : MergeState) (off bm : ℤ)
    (hidx : index < current.length)
    (hoff : merge[index]? = some off)
    (hbm : merge[i64_as_usize ((index : ℤ) + off)]? = some bm)
    (hne : (i64_as_usize ((index : ℤ) + off) : ℤ) + bm ≠ (index : ℤ)) :
    merge_pass_go current merge index st =
      merge_pass_go current merge (index + 1)
        { st with next := st.next ++ [current.getD index Bvh2Node.default] } := by
  rw [merge_pass_go, dif_pos hidx, hoff]
  simp only [hbm]
  rw [if_pos hne]
  rw [List.getD_eq_getElem current Bvh2Node.default hidx]

theorem merge_pass_go_skip (current : List Bvh2Node) (merge : List ℤ)
    (index : ℕ) (st : MergeState) (off bm : ℤ)
    (hidx : index < current.length)
    (hoff : merge[index]? = some off)
    (hbm : merge[i64_as_usize ((index : ℤ) + off)]? = some bm)
    (heq : (i64_as_usize ((index : ℤ) + off) : ℤ) + bm = (index : ℤ))
    (hgt : i64_as_usize ((index : ℤ) + off) > index) :
    merge_pass_go current merge index st =
      merge_pass_go current merge (index + 1) st := by
  rw [merge_pass_go, dif_pos hidx, hoff]
  simp only [hbm, heq, ne_eq, not_true_eq_false, if_false]
  rw [if_pos hgt]

theorem merge_pass_go_emit (current : List Bvh2Node) (merge : List ℤ)
    (index : ℕ) (st : MergeState) (off bm : ℤ)
    (hidx : index < current.length)
    (hoff : merge[index]? = some off)
    (hbm : merge[i64_as_usize ((index : ℤ) + off)]? = some bm)
    (heq : (i64_as_usize ((index : ℤ) + off) : ℤ) + bm = (index : ℤ))
    (hlt : ¬ i64_as_usize ((index : ℤ) + off) > index)
    (h2 : ¬ st.insert_index < 2)
    (hw : st.insert_index - 2 + 1 < st.nodes.length)
    (hoff1 : ¬ off = 1) :
    merge_pass_go current merge index st =
      merge_pass_go current merge (index + 1)
        { next := st.next ++
            [⟨(current.getD index Bvh2Node.default).aabb.union
                (current.getD (i64_as_usize ((index : ℤ) + off))
                  Bvh2Node.default).aabb,
              usize_to_i32 (st.insert_index - 2)⟩],
          nodes := (st.nodes.set (st.insert_index - 2)
                      (current.getD index Bvh2Node.default)).set
                    (st.insert_index - 2 + 1)
                    (current.getD (i64_as_usize ((index : ℤ) + off))
                      Bvh2Node.default),
          insert_index := st.insert_index - 2 } := by
  rw [merge_pass_go, dif_pos hidx, hoff]
  simp only [hbm, heq, ne_eq, not_true_eq_false, if_false]
  rw [if_neg hlt, if_neg h2, if_pos hw, if_neg hoff1]
  rw [List.getD_eq_getElem current Bvh2Node.default hidx]

theorem getD_set_self (l : List Bvh2Node) (p : ℕ) (x : Bvh2Node)
    (h : p < l.length) :
    (l.set p x).getD p Bvh2Node.default = x := by
  rw [List.getD_eq_getElem _ _ (by simpa using h)]
  exact List.getElem_set_self _

theorem getD_set_ne (l : List Bvh2Node) (p q : ℕ) (x : Bvh2Node)
    (h : p ≠ q) :
    (l.set p x).getD q Bvh2Node.default = l.getD q Bvh2Node.default := by
  by_cases hq : q < l.length
  · rw [List.getD_eq_getElem _ _ (by simpa using hq),
      List.getD_eq_getElem _ _ hq]
    exact List.getElem_set_ne h _
  · rw [List.getD_eq_default _ _ (by simpa using (by omega : l.length ≤ q)),
      List.getD_eq_default _ _ (by omega)]

theorem usize_to_i32_small (n : ℕ) (h : n < 2 ^ 31) : usize_to_i32 n = n := by
  unfold usize_to_i32
  have hm : n % 2 ^ 32 = n := Nat.mod_eq_of_lt (by omega)
  rw [hm, if_pos h]
  omega

theorem emit_at_true_iff (merge : List ℤ) (index : ℕ) :
    emit_at merge index = true ↔
      1 ≤ index ∧ merge.getD index 0 = -1 ∧ merge.getD (index - 1) 0 = 1 := by
  unfold emit_at
  simp [and_assoc]

theorem emit_at_false_of_ge (merge : List ℤ) (index : ℕ)
    (h : merge.length ≤ index) : emit_at merge index = false := by
  have h0 : merge.getD index 0 = 0 := List.getD_eq_default _ _ h
  unfold emit_at
  rw [h0]
  simp

/-- The element deferred by a skip: when index `i` is an emission index,
`current[i-1]` was skipped at the previous step and is consumed here. -/
def pend_list (current : List Bvh2Node) (merge : List ℤ) (index : ℕ) :
    List Bvh2Node :=
  if emit_at merge index then [current.getD (index - 1) Bvh2Node.default] else []

theorem ms_union_union_pair (a b : Aabb) (s : Multiset Aabb) :
    ms_union ((a.union b) ::ₘ s) = ms_union (a ::ₘ b ::ₘ s) := by
  rw [ms_union_cons, ms_union_cons, ms_union_cons, ← union_assoc]

theorem pend_list_of_true (current : List Bvh2Node) (merge : List ℤ)
    (index : ℕ) (h : emit_at merge index = true) :
    pend_list current merge index =
      [current.getD (index - 1) Bvh2Node.default] := by
  unfold pend_list
  rw [if_pos h]

theorem pend_list_of_false (current : List Bvh2Node) (merge : List ℤ)
    (index : ℕ) (h : emit_at merge index = false) :
    pend_list current merge index = [] := by
  unfold pend_list
  rw [if_neg (by simp [h])]

theorem merge_pass_main_base (current : List Bvh2Node) (merge : List ℤ)
    (hmlen : merge.length = current.length)
    (index : ℕ) (st : MergeState) (hge : current.length ≤ index) :
    merge_pass_go current merge index st = some st ∧
    emit_from merge current.length index = 0 ∧
    current.drop index = [] ∧
    pend_list current merge index = [] := by
  refine ⟨merge_pass_go_ge current merge index st (by omega),
    emit_from_ge merge current.length index hge, List.drop_eq_nil_of_le hge,
    pend_list_of_false current merge index
      (emit_at_false_of_ge merge index (by omega))⟩

/-- Full accounting for a run of the sequential merge pass from `index`,
for directions computed by `calculate_merge_dirs` over bounded nodes: the
run does not panic, every emission lowers `insert_index` by 2 and pushes
one internal node, the lengths and the multisets of decoded leaf ids and
of AABBs are conserved, pushed internal indices point at or above the new
`insert_index`, and written internal slots point strictly above their own
position. -/
theorem merge_pass_go_main (current : List Bvh2Node) (merge : List ℤ)
    (hmerge : merge = calculate_merge_dirs current)
    (hb : ∀ n ∈ current, node_bounded n)
    (hL : 2 ≤ current.length) (h64 : current.length < usizeMod) :
    ∀ k index st, current.length - index ≤ k → index ≤ current.length →
      2 * emit_from merge current.length index ≤ st.insert_index →
      st.insert_index ≤ st.nodes.length →
      st.nodes.length < 2 ^ 31 →
      (∀ n ∈ current, 0 ≤ n.index →
        st.insert_index ≤ n.index.toNat ∧ n.index.toNat + 1 < st.nodes.length) →
      (∀ n ∈ st.next, 0 ≤ n.index →
        st.insert_index ≤ n.index.toNat ∧ n.index.toNat + 1 < st.nodes.length) →
      (∀ p, st.insert_index ≤ p → p < st.nodes.length →
        0 ≤ (st.nodes.getD p Bvh2Node.default).index →
        p < (st.nodes.getD p Bvh2Node.default).index.toNat ∧
          (st.nodes.getD p Bvh2Node.default).index.toNat + 1 < st.nodes.length) →
      (∀ n ∈ st.next, node_bounded n) →
      ∃ st', merge_pass_go current merge index st = some st' ∧
        st'.nodes.length = st.nodes.length ∧
        st'.insert_index =
          st.insert_index - 2 * emit_from merge current.length index ∧
        st'.next.length + emit_from merge current.length index =
          st.next.length + (current.length - index) +
            (pend_list current merge index).length ∧
        leaf_ids (st'.next ++ st'.nodes.drop st'.insert_index) =
          leaf_ids (st.next ++ current.drop index ++
            pend_list current merge index ++ st.nodes.drop st.insert_index) ∧
        ms_union (aabbs_of st'.next) =
          ms_union (aabbs_of (st.next ++ current.drop index ++
            pend_list current merge index)) ∧
        (∀ n ∈ st'.next, 0 ≤ n.index →
          st'.insert_index ≤ n.index.toNat ∧
            n.index.toNat + 1 < st'.nodes.length) ∧
        (∀ p, st'.insert_index ≤ p → p < st'.nodes.length →
          0 ≤ (st'.nodes.getD p Bvh2Node.default).index →
          p < (st'.nodes.getD p Bvh2Node.default).index.toNat ∧
            (st'.nodes.getD p Bvh2Node.default).index.toNat + 1 <
              st'.nodes.length) ∧
        (∀ n ∈ st'.next, node_bounded n) := by
  have hmlen : merge.length = current.length := by
    rw [hmerge, calculate_merge_dirs_length]
    omega
  have hlast : merge.getD (current.length - 1) 0 = -1 := by
    rw [hmerge]
    exact calculate_merge_dirs_getD_last current hL
  have hhead : merge.getD 0 0 = 1 := by
    rw [hmerge]
    exact calculate_merge_dirs_head current hL hb
  have hpm : ∀ i, i < current.length →
      merge.getD i 0 = -1 ∨ merge.getD i 0 = 1 := by
    intro i hi
    rw [hmerge]
    exact calculate_merge_dirs_getD_pm current i hi
  intro k
  induction k with
  | zero =>
    intro index st hk hle hE hIL _ _ Hn Harr Hbn
    have hge : current.length ≤ index := by omega
    obtain ⟨h1, h2, h3, h4⟩ := merge_pass_main_base current merge hmlen index st hge
    refine ⟨st, h1, rfl, by rw [h2]; omega, ?_, ?_, ?_, Hn, Harr, Hbn⟩
    · rw [h2, h4]
      simp
      omega
    · rw [h3, h4]
      simp
    · rw [h3, h4]
      simp
  | succ k ih =>
    intro index st hk hle hE hIL hsz Hc Hn Harr Hbn
    by_cases hidx : index < current.length
    case neg =>
      have hge : current.length ≤ index := by omega
      obtain ⟨h1, h2, h3, h4⟩ :=
        merge_pass_main_base current merge hmlen index st hge
      refine ⟨st, h1, rfl, by rw [h2]; omega, ?_, ?_, ?_, Hn, Harr, Hbn⟩
      · rw [h2, h4]
        simp
        omega
      · rw [h3, h4]
        simp
      · rw [h3, h4]
        simp
    case pos =>
    have hoff : merge[index]? = some (merge.getD index 0) :=
      getElem?_eq_some_getD merge index (by omega)
    have hdrop : current.drop index =
        current.getD index Bvh2Node.default :: current.drop (index + 1) := by
      rw [List.getD_eq_getElem _ _ hidx]
      exact List.drop_eq_getElem_cons hidx
    rcases hpm index hidx with hneg | hpos
    case inr =>
      -- merge[index] = +1; the last index always has -1, so index+1 < m.
      have hi1 : index + 1 < current.length := by
        by_contra hc
        have hix : index = current.length - 1 := by omega
        rw [hix, hlast] at hpos
        exact absurd hpos (by decide)
      have hcast : ((index : ℤ) + merge.getD index 0) = ((index + 1 : ℕ) : ℤ) := by
        rw [hpos]
        push_cast
        ring
      have hbest : i64_as_usize ((index : ℤ) + merge.getD index 0) = index + 1 := by
        rw [hcast, i64_as_usize_ofNat _ (by omega)]
      have hbm : merge[i64_as_usize ((index : ℤ) + merge.getD index 0)]? =
          some (merge.getD (index + 1) 0) := by
        rw [hbest]
        exact getElem?_eq_some_getD merge (index + 1) (by omega)
      have hcondF : emit_at merge index = false := by
        rw [Bool.eq_false_iff, Ne, emit_at_true_iff]
        intro hp
        rw [hpos] at hp
        exact absurd hp.2.1 (by decide)
      have hEstep : emit_from merge current.length index =
          emit_from merge current.length (index + 1) := by
        rw [emit_from_step merge current.length index hidx, hcondF]
        simp
      rcases hpm (index + 1) hi1 with hbneg | hbpos
      case inl =>
        -- mutual with the right neighbour: skip.
        have heq : ((i64_as_usize ((index : ℤ) + merge.getD index 0)) : ℤ) +
            merge.getD (index + 1) 0 = (index : ℤ) := by
          rw [hbest, hbneg]
          push_cast
          ring
        have hstep := merge_pass_go_skip current merge index st _ _ hidx hoff hbm
          heq (by rw [hbest]; omega)
        have hcondT : emit_at merge (index + 1) = true := by
          rw [emit_at_true_iff]
          exact ⟨by omega, hbneg, by simpa using hpos⟩
        obtain ⟨st', hrun, hc2, hc3, hc4, hc5, hc6, hc7, hc8, hc9⟩ :=
          ih (index + 1) st (by omega) (by omega) (by rw [hEstep] at hE; exact hE)
            hIL hsz Hc Hn Harr Hbn
        refine ⟨st', by rw [hstep]; exact hrun, hc2, by rw [hEstep]; exact hc3,
          ?_, ?_, ?_, hc7, hc8, hc9⟩
        · rw [hEstep]
          rw [pend_list_of_false current merge index hcondF,
            pend_list_of_true current merge (index + 1) hcondT] at *
          simp only [List.length_cons, List.length_nil] at *
          omega
        · rw [hc5]
          rw [pend_list_of_false current merge index hcondF,
            pend_list_of_true current merge (index + 1) hcondT, hdrop]
          simp only [Nat.add_sub_cancel]
          simp [leaf_ids_append, leaf_ids_cons]
          try abel
        · rw [hc6]
          congr 1
          rw [pend_list_of_false current merge index hcondF,
            pend_list_of_true current merge (index + 1) hcondT, hdrop]
          simp only [Nat.add_sub_cancel]
          simp [aabbs_of_append, aabbs_of_cons]
          try abel
      case inr =>
        -- not mutual: push current[index].
        have hne : ((i64_as_usize ((index : ℤ) + merge.getD index 0)) : ℤ) +
            merge.getD (index + 1) 0 ≠ (index : ℤ) := by
          rw [hbest, hbpos]
          push_cast
          omega
        have hstep := merge_pass_go_push current merge index st _ _ hidx hoff hbm hne
        have hcond1F : emit_at merge (index + 1) = false := by
          rw [Bool.eq_false_iff, Ne, emit_at_true_iff]
          intro hp
          rw [hbpos] at hp
          exact absurd hp.2.1 (by decide)
        obtain ⟨st', hrun, hc2, hc3, hc4, hc5, hc6, hc7, hc8, hc9⟩ :=
          ih (index + 1)
            { st with next := st.next ++ [current.getD index Bvh2Node.default] }
            (by omega) (by omega) (by rw [hEstep] at hE; exact hE) hIL hsz Hc
            (by
              intro n hn hni
              rcases List.mem_append.mp hn with h | h
              · exact Hn n h hni
              · rw [List.mem_singleton.mp h]
                exact Hc _ (getD_mem_of_lt current index hidx) (by
                  rw [← List.mem_singleton.mp h]; exact hni))
            Harr
            (by
              intro n hn
              rcases List.mem_append.mp hn with h | h
              · exact Hbn n h
              · rw [List.mem_singleton.mp h]
                exact hb _ (getD_mem_of_lt current index hidx))
        refine ⟨st', by rw [hstep]; exact hrun, hc2, by rw [hEstep]; exact hc3,
          ?_, ?_, ?_, hc7, hc8, hc9⟩
        · rw [hEstep]
          rw [pend_list_of_false current merge index hcondF,
            pend_list_of_false current merge (index + 1) hcond1F] at *
          simp only [List.length_cons, List.length_nil, List.length_append] at *
          omega
        · rw [hc5]
          rw [pend_list_of_false current merge index hcondF,
            pend_list_of_false current merge (index + 1) hcond1F, hdrop]
          simp [leaf_ids_append, leaf_ids_cons]
          try abel
        · rw [hc6]
          congr 1
          rw [pend_list_of_false current merge index hcondF,
            pend_list_of_false current merge (index + 1) hcond1F, hdrop]
          simp [aabbs_of_append, aabbs_of_cons]
          try abel
    case inl =>
      -- merge[index] = -1; index 0 always has +1, so index ≥ 1.
      have hidx1 : 1 ≤ index := by
        by_contra hc
        push_neg at hc
        have h0 : index = 0 := by omega
        rw [h0, hhead] at hneg
        exact absurd hneg (by decide)
      have hcast : ((index : ℤ) + merge.getD index 0) = ((index - 1 : ℕ) : ℤ) := by
        rw [hneg]
        push_cast [hidx1]
        omega
      have hbest : i64_as_usize ((index : ℤ) + merge.getD index 0) = index - 1 := by
        rw [hcast, i64_as_usize_ofNat _ (by omega)]
      have hbm : merge[i64_as_usize ((index : ℤ) + merge.getD index 0)]? =
          some (merge.getD (index - 1) 0) := by
        rw [hbest]
        exact getElem?_eq_some_getD merge (index - 1) (by omega)
      have hcond1F : emit_at merge (index + 1) = false := by
        rw [Bool.eq_false_iff, Ne, emit_at_true_iff]
        intro hp
        have : merge.getD (index + 1 - 1) 0 = 1 := hp.2.2
        simp only [Nat.add_sub_cancel] at this
        rw [hneg] at this
        exact absurd this (by decide)
      rcases hpm (index - 1) (by omega) with hbneg | hbpos
      case inl =>
        -- previous also prefers its left: not mutual, push.
        have hne : ((i64_as_usize ((index : ℤ) + merge.getD index 0)) : ℤ) +
            merge.getD (index - 1) 0 ≠ (index : ℤ) := by
          rw [hbest, hbneg]
          push_cast [hidx1]
          omega
        have hstep := merge_pass_go_push current merge index st _ _ hidx hoff hbm hne
        have hcondF : emit_at merge index = false := by
          rw [Bool.eq_false_iff, Ne, emit_at_true_iff]
          intro hp
          rw [hbneg] at hp
          exact absurd hp.2.2 (by decide)
        have hEstep : emit_from merge current.length index =
            emit_from merge current.length (index + 1) := by
          rw [emit_from_step merge current.length index hidx, hcondF]
          simp
        obtain ⟨st', hrun, hc2, hc3, hc4, hc5, hc6, hc7, hc8, hc9⟩ :=
          ih (index + 1)
            { st with next := st.next ++ [current.getD index Bvh2Node.default] }
            (by omega) (by omega) (by rw [hEstep] at hE; exact hE) hIL hsz Hc
            (by
              intro n hn hni
              rcases List.mem_append.mp hn with h | h
              · exact Hn n h hni
              · rw [List.mem_singleton.mp h]
                exact Hc _ (getD_mem_of_lt current index hidx) (by
                  rw [← List.mem_singleton.mp h]; exact hni))
            Harr
            (by
              intro n hn
              rcases List.mem_append.mp hn with h | h
              · exact Hbn n h
              · rw [List.mem_singleton.mp h]
                exact hb _ (getD_mem_of_lt current index hidx))
        refine ⟨st', by rw [hstep]; exact hrun, hc2, by rw [hEstep]; exact hc3,
          ?_, ?_, ?_, hc7, hc8, hc9⟩
        · rw [hEstep]
          rw [pend_list_of_false current merge index hcondF,
            pend_list_of_false current merge (index + 1) hcond1F] at *
          simp only [List.length_cons, List.length_nil, List.length_append] at *
          omega
        · rw [hc5]
          rw [pend_list_of_false current merge index hcondF,
            pend_list_of_false current merge (index + 1) hcond1F, hdrop]
          simp [leaf_ids_append, leaf_ids_cons]
          try abel
        · rw [hc6]
          congr 1
          rw [pend_list_of_false current merge index hcondF,
            pend_list_of_false current merge (index + 1) hcond1F, hdrop]
          simp [aabbs_of_append, aabbs_of_cons]
          try abel
      case inr =>
        -- mutual with the left neighbour: emit.
        have heq : ((i64_as_usize ((index : ℤ) + merge.getD index 0)) : ℤ) +
            merge.getD (index - 1) 0 = (index : ℤ) := by
          rw [hbest, hbpos]
          push_cast [hidx1]
          omega
        have hcondT : emit_at merge index = true := by
          rw [emit_at_true_iff]
          exact ⟨hidx1, hneg, hbpos⟩
        have hEstep : emit_from merge current.length index =
            1 + emit_from merge current.length (index + 1) := by
          rw [emit_from_step merge current.length index hidx, hcondT]
          simp
        have hii2 : 2 ≤ st.insert_index := by
          rw [hEstep] at hE
          omega
        have hstep := merge_pass_go_emit current merge index st _ _ hidx hoff hbm
          heq (by rw [hbest]; omega) (by omega)
          (by omega) (by rw [hneg]; decide)
        set left := current.getD index Bvh2Node.default with hleft
        set right := current.getD (i64_as_usize ((index : ℤ) + merge.getD index 0))
          Bvh2Node.default with hright
        have hrmem : right ∈ current := by
          rw [hright, hbest]
          exact getD_mem_of_lt current (index - 1) (by omega)
        have hlmem : left ∈ current := getD_mem_of_lt current index hidx
        set parent : Bvh2Node :=
          ⟨left.aabb.union right.aabb, usize_to_i32 (st.insert_index - 2)⟩
          with hparent
        set nodes2 : List Bvh2Node :=
          (st.nodes.set (st.insert_index - 2) left).set
            (st.insert_index - 2 + 1) right with hnodes2
        have hlen2 : nodes2.length = st.nodes.length := by
          rw [hnodes2]
          simp
        have hpsmall : usize_to_i32 (st.insert_index - 2) =
            ((st.insert_index - 2 : ℕ) : ℤ) :=
          usize_to_i32_small _ (by omega)
        have hpint : (0 : ℤ) ≤ parent.index := by
          rw [hparent]
          simp only []
          rw [hpsmall]
          positivity
        have hptoNat : parent.index.toNat = st.insert_index - 2 := by
          rw [hparent]
          simp only []
          rw [hpsmall]
          simp
        have hdrop2 : nodes2.drop (st.insert_index - 2) =
            left :: right :: st.nodes.drop st.insert_index := by
          rw [hnodes2]
          rw [set_set_drop_eq st.nodes (st.insert_index - 2) left right (by omega)]
          have h22 : st.insert_index - 2 + 2 = st.insert_index := by omega
          rw [h22]
        obtain ⟨st', hrun, hc2, hc3, hc4, hc5, hc6, hc7, hc8, hc9⟩ :=
          ih (index + 1)
            { next := st.next ++ [parent], nodes := nodes2,
              insert_index := st.insert_index - 2 }
            (by omega) (by omega)
            (by
              dsimp only
              rw [hEstep] at hE
              omega)
            (by dsimp only; rw [hlen2]; omega)
            (by dsimp only; rw [hlen2]; omega)
            (by
              intro n hn hni
              have := Hc n hn hni
              dsimp only
              rw [hlen2]
              omega)
            (by
              intro n hn hni
              dsimp only at hn ⊢
              rw [hlen2]
              rcases List.mem_append.mp hn with h | h
              · have := Hn n h hni
                omega
              · rw [List.mem_singleton.mp h]
                rw [List.mem_singleton.mp h] at hni
                rw [hptoNat]
                omega)
            (by
              intro p hp1 hp2
              dsimp only at hp1 hp2 ⊢
              rw [hlen2] at hp2 ⊢
              by_cases hpeq : p = st.insert_index - 2
              · subst hpeq
                have hgd : nodes2.getD (st.insert_index - 2) Bvh2Node.default = left := by
                  rw [hnodes2]
                  rw [getD_set_ne _ _ _ _ (by omega)]
                  exact getD_set_self _ _ _ (by omega)
                rw [hgd]
                intro hni
                have := Hc left hlmem hni
                omega
              · by_cases hpeq1 : p = st.insert_index - 2 + 1
                · subst hpeq1
                  have hgd : nodes2.getD (st.insert_index - 2 + 1)
                      Bvh2Node.default = right := by
                    rw [hnodes2]
                    exact getD_set_self _ _ _ (by simp; omega)
                  rw [hgd]
                  intro hni
                  have := Hc right hrmem hni
                  omega
                · have hgd : nodes2.getD p Bvh2Node.default =
                      st.nodes.getD p Bvh2Node.default := by
                    rw [hnodes2]
                    rw [getD_set_ne _ _ _ _ (by omega),
                      getD_set_ne _ _ _ _ (by omega)]
                  rw [hgd]
                  intro hni
                  have hpge : st.insert_index ≤ p := by omega
                  exact Harr p hpge hp2 hni)
            (by
              intro n hn
              dsimp only at hn
              rcases List.mem_append.mp hn with h | h
              · exact Hbn n h
              · rw [List.mem_singleton.mp h]
                exact union_bounded (hb _ hlmem) (hb _ hrmem))
        refine ⟨st', by rw [hstep]; exact hrun, by rw [hc2]; dsimp only; exact hlen2,
          ?_, ?_, ?_, ?_, hc7, hc8, hc9⟩
        · rw [hc3]
          dsimp only
          rw [hEstep]
          rw [hEstep] at hE
          omega
        · rw [pend_list_of_true current merge index hcondT]
          have h4 := hc4
          rw [pend_list_of_false current merge (index + 1) hcond1F] at h4
          dsimp only at h4
          simp only [List.length_append, List.length_cons, List.length_nil] at h4 ⊢
          rw [hEstep]
          omega
        · rw [hc5]
          rw [pend_list_of_false current merge (index + 1) hcond1F,
            pend_list_of_true current merge index hcondT]
          have hrd : current.getD (index - 1) Bvh2Node.default = right := by
            rw [hright, hbest]
          rw [hrd]
          dsimp only
          rw [hdrop2, hdrop]
          simp only [leaf_ids_append, leaf_ids_cons, leaf_ids_nil]
          rw [if_neg (not_lt.mpr hpint)]
          abel
        · rw [hc6]
          rw [pend_list_of_false current merge (index + 1) hcond1F,
            pend_list_of_true current merge index hcondT]
          have hrd : current.getD (index - 1) Bvh2Node.default = right := by
            rw [hright, hbest]
          rw [hrd]
          dsimp only
          rw [hdrop]
          simp only [aabbs_of_append, aabbs_of_cons, aabbs_of_nil,
            ← Multiset.singleton_add]
          trans ms_union ({left.aabb.union right.aabb} +
            (aabbs_of st.next + aabbs_of (current.drop (index + 1))))
          · congr 1
            abel
          trans ms_union ({left.aabb} + ({right.aabb} +
            (aabbs_of st.next + aabbs_of (current.drop (index + 1)))))
          · simp only [Multiset.singleton_add]
            exact ms_union_union_pair _ _ _
          · congr 1
            abel

/-- The merge loop of `build_ploc` (`ploc.rs` lines 146-322): while more
than one node remains, compute merge directions, run a merge pass, and
swap `next` into `current`.  `fuel` bounds the number of passes; the
termination theorem below shows `|current| - 1` passes always suffice. -/
def ploc_merge_loop (fuel : ℕ) (current nodes : List Bvh2Node)
    (insert_index : ℕ) :
    Option (List Bvh2Node × List Bvh2Node × ℕ) :=
  match fuel with
  | 0 => if 1 < current.length then none else some (current, nodes, insert_index)
  | fuel + 1 =>
    if 1 < current.length then
      match merge_pass current (calculate_merge_dirs current) nodes insert_index with
      | none => none
      | some st => ploc_merge_loop fuel st.next st.nodes st.insert_index
    else some (current, nodes, insert_index)

/-- One full merge pass over bounded nodes: it succeeds, at least one
mutual pair is emitted, the surviving node list is strictly shorter but
non-empty, and `insert_index` keeps the shape `2 * |next| - 1`. -/
theorem merge_pass_full (current nodes : List Bvh2Node) (ii : ℕ)
    (hb : ∀ n ∈ current, node_bounded n)
    (hL : 2 ≤ current.length) (h64 : current.length < usizeMod)
    (hii : ii = 2 * current.length - 1)
    (hilen : ii ≤ nodes.length) (hsz : nodes.length < 2 ^ 31)
    (Hc : ∀ n ∈ current, 0 ≤ n.index →
      ii ≤ n.index.toNat ∧ n.index.toNat + 1 < nodes.length)
    (Harr : ∀ p, ii ≤ p → p < nodes.length →
      0 ≤ (nodes.getD p Bvh2Node.default).index →
      p < (nodes.getD p Bvh2Node.default).index.toNat ∧
        (nodes.getD p Bvh2Node.default).index.toNat + 1 < nodes.length) :
    1 ≤ emit_from (calculate_merge_dirs current) current.length 0 ∧
    ∃ st', merge_pass current (calculate_merge_dirs current) nodes ii = some st' ∧
      st'.nodes.length = nodes.length ∧
      1 ≤ st'.next.length ∧
      st'.next.length < current.length ∧
      st'.insert_index = 2 * st'.next.length - 1 ∧
      st'.insert_index ≤ st'.nodes.length ∧
      leaf_ids (st'.next ++ st'.nodes.drop st'.insert_index) =
        leaf_ids (current ++ nodes.drop ii) ∧
      ms_union (aabbs_of st'.next) = ms_union (aabbs_of current) ∧
      (∀ n ∈ st'.next, 0 ≤ n.index →
        st'.insert_index ≤ n.index.toNat ∧
          n.index.toNat + 1 < st'.nodes.length) ∧
      (∀ p, st'.insert_index ≤ p → p < st'.nodes.length →
        0 ≤ (st'.nodes.getD p Bvh2Node.default).index →
        p < (st'.nodes.getD p Bvh2Node.default).index.toNat ∧
          (st'.nodes.getD p Bvh2Node.default).index.toNat + 1 <
            st'.nodes.length) ∧
      (∀ n ∈ st'.next, node_bounded n) := by
  set merge := calculate_merge_dirs current with hmerge
  have hmlen : merge.length = current.length := by
    rw [hmerge, calculate_merge_dirs_length]
    omega
  have hEpos : 1 ≤ emit_from merge current.length 0 := by
    obtain ⟨i, hi1, him, hia⟩ := exists_emit_index merge current.length hmlen hL
      (fun i hi => calculate_merge_dirs_getD_pm current i hi)
      (calculate_merge_dirs_head current hL hb)
      (calculate_merge_dirs_getD_last current hL)
    exact emit_from_pos merge current.length current.length 0 i (by omega)
      (by omega) him hia
  have hEle : 2 * emit_from merge current.length 0 ≤ current.length + 1 := by
    have := emit_from_le merge current.length current.length 0 (by omega)
    omega
  have hpendF : pend_list current merge 0 = [] :=
    pend_list_of_false current merge 0 (by
      unfold emit_at
      simp)
  obtain ⟨st', hrun, hc2, hc3, hc4, hc5, hc6, hc7, hc8, hc9⟩ :=
    merge_pass_go_main current merge rfl hb hL h64 current.length 0
      ⟨[], nodes, ii⟩ (by omega) (by omega) (by dsimp only; omega)
      (by dsimp only; omega) (by dsimp only; omega)
      (by
        intro n hn hni
        exact Hc n hn hni)
      (by intro n hn; simp at hn)
      (by
        intro p hp1 hp2
        exact Harr p hp1 hp2)
      (by intro n hn; simp at hn)
  rw [hpendF] at hc4 hc5 hc6
  dsimp only at hc2 hc3 hc4 hc5 hc6
  simp only [List.length_nil, List.drop_zero, List.nil_append, List.append_nil,
    Nat.sub_zero, zero_add] at hc4 hc5 hc6
  refine ⟨hEpos, st', hrun, hc2, ?_, ?_, ?_, ?_, hc5, hc6, hc7, hc8, hc9⟩
  · omega
  · omega
  · rw [hc3]
    omega
  · rw [hc3, hc2]
    omega

/-- The merge loop terminates: from `L` bounded nodes with
`insert_index = 2L - 1`, at most `L - 1` passes reach a single surviving
node with `insert_index = 1`, conserving the node-array length, the leaf
ids and the AABB union, and keeping all written internal slots pointing
strictly above their own position. -/
theorem ploc_merge_loop_main :
    ∀ k current nodes ii fuel, current.length ≤ k →
      (∀ n ∈ current, node_bounded n) →
      1 ≤ current.length → current.length < usizeMod →
      current.length - 1 ≤ fuel →
      ii = 2 * current.length - 1 →
      ii ≤ nodes.length → nodes.length < 2 ^ 31 →
      (∀ n ∈ current, 0 ≤ n.index →
        ii ≤ n.index.toNat ∧ n.index.toNat + 1 < nodes.length) →
      (∀ p, ii ≤ p → p < nodes.length →
        0 ≤ (nodes.getD p Bvh2Node.default).index →
        p < (nodes.getD p Bvh2Node.default).index.toNat ∧
          (nodes.getD p Bvh2Node.default).index.toNat + 1 < nodes.length) →
      ∃ fc fn fii, ploc_merge_loop fuel current nodes ii = some (fc, fn, fii) ∧
        fc.length = 1 ∧ fii = 1 ∧ fn.length = nodes.length ∧
        leaf_ids (fc ++ fn.drop 1) = leaf_ids (current ++ nodes.drop ii) ∧
        ms_union (aabbs_of fc) = ms_union (aabbs_of current) ∧
        (∀ n ∈ fc, node_bounded n) ∧
        (∀ n ∈ fc, 0 ≤ n.index →
          1 ≤ n.index.toNat ∧ n.index.toNat + 1 < fn.length) ∧
        (∀ p, 1 ≤ p → p < fn.length →
          0 ≤ (fn.getD p Bvh2Node.default).index →
          p < (fn.getD p Bvh2Node.default).index.toNat ∧
            (fn.getD p Bvh2Node.default).index.toNat + 1 < fn.length) := by
  intro k
  induction k with
  | zero =>
    intro current nodes ii fuel hk hb h1 h64 hfuel hii hilen hsz Hc Harr
    omega
  | succ k ih =>
    intro current nodes ii fuel hk hb h1 h64 hfuel hii hilen hsz Hc Harr
    by_cases hone : 1 < current.length
    case neg =>
      have hlen1 : current.length = 1 := by omega
      have hdone : ploc_merge_loop fuel current nodes ii =
          some (current, nodes, ii) := by
        match fuel with
        | 0 => rw [ploc_merge_loop, if_neg hone]
        | (f + 1) => rw [ploc_merge_loop, if_neg hone]
      refine ⟨current, nodes, ii, hdone, hlen1, by omega, rfl, by rw [hii, hlen1],
        rfl, hb, ?_, ?_⟩
      · intro n hn hni
        have := Hc n hn hni
        omega
      · intro p hp1 hp2
        have hp : ii ≤ p := by omega
        exact Harr p hp hp2
    case pos =>
      obtain ⟨hEpos, st', hrun, hc2, hnext1, hdec, hc3, hile2, hc5, hc6, hc7, hc8, hc9⟩ :=
        merge_pass_full current nodes ii hb (by omega) h64 hii hilen hsz Hc Harr
      have hfuel1 : 1 ≤ fuel := by omega
      obtain ⟨f, rfl⟩ : ∃ f, fuel = f + 1 := ⟨fuel - 1, by omega⟩
      obtain ⟨fc, fn, fii, hloop, hfc1, hfii, hfn, hl5, hl6, hl7, hl8, hl9⟩ :=
        ih st'.next st'.nodes st'.insert_index f (by omega) hc9 (by omega)
          (by omega) (by omega) (by omega) hile2 (by rw [hc2]; exact hsz) hc7 hc8
      refine ⟨fc, fn, fii, ?_, hfc1, hfii, by rw [hfn, hc2], ?_, ?_, hl7, hl8, hl9⟩
      · rw [ploc_merge_loop, if_pos hone, hrun]
        exact hloop
      · rw [hl5]
        exact hc5
      · rw [hl6]
        exact hc6

instance (v : Vec3) : Decidable (vec_bounded v) := by
  unfold vec_bounded
  infer_instance

instance (a : Aabb) : Decidable (aabb_bounded a) := by
  unfold aabb_bounded
  infer_instance

instance (n : Bvh2Node) : Decidable (node_bounded n) := by
  unfold node_bounded
  infer_instance

/-- C6, counterexample: two coincident boxes spanning `±f32::MAX` are
finite and non-NaN, but their pairing cost exceeds the `f32::MAX` sentinel
(it overflows to `+∞` in `f32`), so `merge[0] = -1`; the very first merge
pass then computes `best_index = (0 + -1) as usize = 2^64 - 1` and panics
on the out-of-bounds `merge[best_index]` lookup: the merge loop does not
terminate with one surviving node on this valid (finite, non-NaN) input. -/
theorem claim_C6_cex :
    merge_pass [huge_node, huge_node] (calculate_merge_dirs [huge_node, huge_node])
      [Bvh2Node.default, Bvh2Node.default, Bvh2Node.default] 3 = none := by
  have hdirs : calculate_merge_dirs [huge_node, huge_node] = [-1, -1] := by
    norm_num [calculate_merge_dirs, merge_costs, merge_dirs_go, huge_node,
      node_pair_cost, Aabb.union, Aabb.half_area, Aabb.diagonal, Vec3.vmin,
      Vec3.vmax, Vec3.sub, f32_max, List.zip]
  rw [hdirs]
  unfold merge_pass
  rw [merge_pass_go, dif_pos (by decide : 0 < [huge_node, huge_node].length)]
  simp only [List.getElem?_cons_zero]
  rw [List.getElem?_eq_none
    (by decide : ([(-1 : ℤ), -1] : List ℤ).length ≤ i64_as_usize (((0 : ℕ) : ℤ) + -1))]

/-- C6 (amended): for every current node list with `m ≥ 2` nodes whose
coordinates are bounded by `2^60` (so no merge cost overflows the
`f32::MAX` sentinel) and the builder's `insert_index = 2m - 1` invariant:
the direction pass finds at least one mutual pair (an emission index), the
merge pass succeeds and strictly shrinks the node list, and the merge loop
terminates after at most `m - 1` passes with exactly one surviving node. -/
theorem claim_C6_merge_loop_termination (current nodes : List Bvh2Node) (ii : ℕ)
    (hb : ∀ n ∈ current, node_bounded n)
    (hL : 2 ≤ current.length) (h64 : current.length < usizeMod)
    (hii : ii = 2 * current.length - 1)
    (hilen : ii ≤ nodes.length) (hsz : nodes.length < 2 ^ 31)
    (Hc : ∀ n ∈ current, 0 ≤ n.index →
      ii ≤ n.index.toNat ∧ n.index.toNat + 1 < nodes.length)
    (Harr : ∀ p, ii ≤ p → p < nodes.length →
      0 ≤ (nodes.getD p Bvh2Node.default).index →
      p < (nodes.getD p Bvh2Node.default).index.toNat ∧
        (nodes.getD p Bvh2Node.default).index.toNat + 1 < nodes.length) :
    1 ≤ emit_from (calculate_merge_dirs current) current.length 0 ∧
    (∃ st', merge_pass current (calculate_merge_dirs current) nodes ii =
        some st' ∧ 1 ≤ st'.next.length ∧ st'.next.length < current.length) ∧
    (∃ fc fn fii,
      ploc_merge_loop (current.length - 1) current nodes ii =
        some (fc, fn, fii) ∧ fc.length = 1) := by
  obtain ⟨hEpos, st', hrun, _, hnext1, hdec, _⟩ :=
    merge_pass_full current nodes ii hb hL h64 hii hilen hsz Hc Harr
  obtain ⟨fc, fn, fii, hloop, hfc1, _⟩ :=
    ploc_merge_loop_main current.length current nodes ii (current.length - 1)
      le_rfl hb (by omega) h64 le_rfl hii hilen hsz Hc Harr
  exact ⟨hEpos, ⟨st', hrun, hnext1, hdec⟩, fc, fn, fii, hloop, hfc1⟩

theorem claim_C6_witness :
    2 ≤ [c3_node_a, c3_node_b].length ∧
    (1 ≤ emit_from (calculate_merge_dirs [c3_node_a, c3_node_b])
        [c3_node_a, c3_node_b].length 0 ∧
      (∃ st', merge_pass [c3_node_a, c3_node_b]
          (calculate_merge_dirs [c3_node_a, c3_node_b])
          [Bvh2Node.default, Bvh2Node.default, Bvh2Node.default] 3 =
          some st' ∧ 1 ≤ st'.next.length ∧
          st'.next.length < [c3_node_a, c3_node_b].length) ∧
      (∃ fc fn fii,
        ploc_merge_loop ([c3_node_a, c3_node_b].length - 1)
          [c3_node_a, c3_node_b]
          [Bvh2Node.default, Bvh2Node.default, Bvh2Node.default] 3 =
          some (fc, fn, fii) ∧ fc.length = 1)) :=
  ⟨by decide,
    claim_C6_merge_loop_termination [c3_node_a, c3_node_b]
      [Bvh2Node.default, Bvh2Node.default, Bvh2Node.default] 3
      (by decide) (by decide) (by decide) (by decide) (by decide) (by decide)
      (by decide) (by intro p hp1 hp2; simp at hp2; omega)⟩

/-- `src/src/ray.rs`: a ray.  `f32` distances that may be `+∞` (`tmax`,
intersection results) are modelled as `WithTop ℚ`, where `⊤` is the float
infinity; coordinates are finite rationals. -/
structure Ray where
  origin : Vec3
  direction : Vec3
  inv_direction : Vec3
  tmin : ℚ
  tmax : WithTop ℚ
deriving DecidableEq

/-- The `tmin` vector of the slab test of `Aabb::intersect_ray`
(componentwise min of the two plane-distance vectors). -/
def slab_t1 (a : Aabb) (ray : Ray) : Vec3 :=
  (a.min.sub ray.origin).mul ray.inv_direction

def slab_t2 (a : Aabb) (ray : Ray) : Vec3 :=
  (a.max.sub ray.origin).mul ray.inv_direction

/-- `tmin_n` of `Aabb::intersect_ray`: the slab entry distance. -/
def slab_entry (a : Aabb) (ray : Ray) : ℚ :=
  ((slab_t1 a ray).vmin (slab_t2 a ray)).maxElem

/-- `tmax_n` of `Aabb::intersect_ray`: the slab exit distance. -/
def slab_exit (a : Aabb) (ray : Ray) : ℚ :=
  ((slab_t1 a ray).vmax (slab_t2 a ray)).minElem

/-- `Aabb::intersect_ray` (`aabb.rs` lines 95-111): the entry distance when
the slab interval is non-empty and the exit is non-negative, `f32::INFINITY`
(modelled `⊤`) otherwise.  `ray.tmin` is not read. -/
def Aabb.intersect_ray (a : Aabb) (ray : Ray) : WithTop ℚ :=
  if slab_exit a ray ≥ slab_entry a ray ∧ slab_exit a ray ≥ 0 then
    (slab_entry a ray : WithTop ℚ)
  else ⊤

/-- `src/src/lib.rs`: the resumable traversal state. -/
structure Traversal where
  stack : List ℕ
  ray : Ray
deriving DecidableEq

/-- `Bvh2::new_traversal` (`bvh.rs` lines 14-21): push node 0 iff the node
array is non-empty. -/
def Bvh2.new_traversal (bvh : List Bvh2Node) (ray : Ray) : Traversal :=
  { stack := if bvh.isEmpty then [] else [0], ray := ray }

/-- `Bvh2::traverse` (`bvh.rs` lines 23-51), with explicit fuel for the
`while let` loop (the termination theorem below bounds the number of pops
for well-formed trees; exhausted fuel and an out-of-bounds node index both
give `none`).  Returns whether a primitive was hit, the updated state and
the `closest_t` / `closest_id` out-parameters. -/
def Bvh2.traverse (bvh : List Bvh2Node) (f : Ray → ℕ → WithTop ℚ) :
    ℕ → Traversal → WithTop ℚ → ℕ → Option (Bool × Traversal × WithTop ℚ × ℕ)
  | 0, _, _, _ => none
  | fuel + 1, state, closest_t, closest_id =>
    match state.stack with
    | [] => some (false, state, closest_t, closest_id)
    | i :: rest =>
      match bvh[i]? with
      | none => none
      | some node =>
        if node.aabb.intersect_ray state.ray ≥ state.ray.tmax then
          Bvh2.traverse bvh f fuel { state with stack := rest } closest_t closest_id
        else if node.index < 0 then
          if f state.ray (-(node.index + 1)).toNat < state.ray.tmax then
            some (true,
              { stack := rest,
                ray := { state.ray with
                  tmax := f state.ray (-(node.index + 1)).toNat } },
              f state.ray (-(node.index + 1)).toNat, (-(node.index + 1)).toNat)
          else
            Bvh2.traverse bvh f fuel { state with stack := rest } closest_t closest_id
        else
          Bvh2.traverse bvh f fuel
            { state with
              stack := (node.index.toNat + 1) :: node.index.toNat :: rest }
            closest_t closest_id

/-- Termination measure for the traversal: pushing the two children of an
internal node (both at strictly larger positions) strictly lowers it. -/
def trav_measure (len : ℕ) (stack : List ℕ) : ℕ :=
  (stack.map fun i => 3 ^ (len - i)).sum

theorem trav_measure_cons (len i : ℕ) (rest : List ℕ) :
    trav_measure len (i :: rest) = 3 ^ (len - i) + trav_measure len rest := by
  simp [trav_measure]

/-- For trees whose internal nodes point strictly above their own position,
the traversal drains its stack within `trav_measure` pops. -/
theorem traverse_terminates (bvh : List Bvh2Node) (f : Ray → ℕ → WithTop ℚ)
    (hwf : ∀ p, p < bvh.length →
      0 ≤ (bvh.getD p Bvh2Node.default).index →
      p < (bvh.getD p Bvh2Node.default).index.toNat ∧
        (bvh.getD p Bvh2Node.default).index.toNat + 1 < bvh.length) :
    ∀ fuel st ct ci, (∀ i ∈ st.stack, i < bvh.length) →
      trav_measure bvh.length st.stack < fuel →
      (Bvh2.traverse bvh f fuel st ct ci).isSome := by
  intro fuel
  induction fuel with
  | zero => intro st ct ci _ hm; omega
  | succ fuel ih =>
    intro st ct ci hval hm
    match hst : st.stack with
    | [] => simp [Bvh2.traverse, hst]
    | i :: rest =>
      have hi : i < bvh.length := hval i (by rw [hst]; exact List.mem_cons_self i rest)
      have hnode : bvh[i]? = some (bvh.getD i Bvh2Node.default) := by
        rw [List.getElem?_eq_getElem hi, List.getD_eq_getElem _ _ hi]
      rw [hst, trav_measure_cons] at hm
      have hpow1 : 1 ≤ 3 ^ (bvh.length - i) := Nat.one_le_pow _ _ (by norm_num)
      have hrest : ∀ j ∈ rest, j < bvh.length := by
        intro j hj
        exact hval j (by rw [hst]; exact List.mem_cons_of_mem i hj)
      simp only [Bvh2.traverse, hst, hnode]
      split
      · exact ih _ ct ci hrest (by dsimp only; omega)
      · split
        · split
          · simp
          · exact ih _ ct ci hrest (by dsimp only; omega)
        · rename_i hskip hleaf
          set node := bvh.getD i Bvh2Node.default with hnodedef
          have hint : 0 ≤ node.index := by omega
          obtain ⟨hgt, hlt⟩ := hwf i hi hint
          set c := node.index.toNat with hc
          refine ih _ ct ci ?_ ?_
          · intro j hj
            simp only [List.mem_cons] at hj
            rcases hj with h | h | h
            · omega
            · omega
            · exact hrest j h
          · rw [trav_measure_cons, trav_measure_cons]
            have hca : bvh.length - c = (bvh.length - c - 1) + 1 := by omega
            have hle1 : 3 ^ (bvh.length - (c + 1)) = 3 ^ (bvh.length - c - 1) := by
              have hx : bvh.length - (c + 1) = bvh.length - c - 1 := by omega
              rw [hx]
            have hle2 : (bvh.length - c - 1) + 2 ≤ bvh.length - i := by omega
            have hp2 : 3 ^ ((bvh.length - c - 1) + 2) ≤ 3 ^ (bvh.length - i) :=
              Nat.pow_le_pow_right (by norm_num) hle2
            have hp3 : 1 ≤ 3 ^ (bvh.length - c - 1) :=
              Nat.one_le_pow _ _ (by norm_num)
            have hexp : 3 ^ ((bvh.length - c - 1) + 2) =
                9 * 3 ^ (bvh.length - c - 1) := by
              ring
            have hexp2 : 3 ^ (bvh.length - c) = 3 ^ (bvh.length - c - 1) * 3 := by
              conv_lhs => rw [hca]
              rw [pow_succ]
            rw [hle1, hexp2]
            omega

/-- C5: the resumable traversal.  `new_traversal` pushes node 0 onto the
stack iff the BVH is non-empty; `traverse` returns `false` leaving
everything unchanged when the stack is empty (in particular immediately
for an empty BVH); each step pops the top node and skips it when its AABB
entry distance is `≥ ray.tmax`, returns `true` as soon as a leaf's
intersection distance is below `ray.tmax` (recording `closest_t`,
`closest_id` and shrinking `ray.tmax`), continues past leaves that do not
improve, and pushes both children `index` and `index + 1` of an internal
node; and for a well-formed tree the stack drains after boundedly many
pops. -/
theorem claim_C5_resumable_traversal (bvh : List Bvh2Node)
    (f : Ray → ℕ → WithTop ℚ) (ray : Ray) :
    ((Bvh2.new_traversal bvh ray).stack = if bvh.isEmpty then [] else [0]) ∧
    (∀ fuel st ct ci, st.stack = [] →
      Bvh2.traverse bvh f (fuel + 1) st ct ci = some (false, st, ct, ci)) ∧
    (bvh = [] → ∀ fuel ct ci,
      Bvh2.traverse bvh f (fuel + 1) (Bvh2.new_traversal bvh ray) ct ci =
        some (false, Bvh2.new_traversal bvh ray, ct, ci)) ∧
    (∀ fuel st ct ci i rest node, st.stack = i :: rest → bvh[i]? = some node →
      node.aabb.intersect_ray st.ray ≥ st.ray.tmax →
      Bvh2.traverse bvh f (fuel + 1) st ct ci =
        Bvh2.traverse bvh f fuel { st with stack := rest } ct ci) ∧
    (∀ fuel st ct ci i rest node, st.stack = i :: rest → bvh[i]? = some node →
      ¬ node.aabb.intersect_ray st.ray ≥ st.ray.tmax → node.index < 0 →
      f st.ray (-(node.index + 1)).toNat < st.ray.tmax →
      Bvh2.traverse bvh f (fuel + 1) st ct ci =
        some (true,
          { stack := rest,
            ray := { st.ray with tmax := f st.ray (-(node.index + 1)).toNat } },
          f st.ray (-(node.index + 1)).toNat, (-(node.index + 1)).toNat)) ∧
    (∀ fuel st ct ci i rest node, st.stack = i :: rest → bvh[i]? = some node →
      ¬ node.aabb.intersect_ray st.ray ≥ st.ray.tmax → node.index < 0 →
      ¬ f st.ray (-(node.index + 1)).toNat < st.ray.tmax →
      Bvh2.traverse bvh f (fuel + 1) st ct ci =
        Bvh2.traverse bvh f fuel { st with stack := rest } ct ci) ∧
    (∀ fuel st ct ci i rest node, st.stack = i :: rest → bvh[i]? = some node →
      ¬ node.aabb.intersect_ray st.ray ≥ st.ray.tmax → ¬ node.index < 0 →
      Bvh2.traverse bvh f (fuel + 1) st ct ci =
        Bvh2.traverse bvh f fuel
          { st with stack := (node.index.toNat + 1) :: node.index.toNat :: rest }
          ct ci) ∧
    ((∀ p, p < bvh.length →
        0 ≤ (bvh.getD p Bvh2Node.default).index →
        p < (bvh.getD p Bvh2Node.default).index.toNat ∧
          (bvh.getD p Bvh2Node.default).index.toNat + 1 < bvh.length) →
      ∀ fuel st ct ci, (∀ i ∈ st.stack, i < bvh.length) →
        trav_measure bvh.length st.stack < fuel →
        (Bvh2.traverse bvh f fuel st ct ci).isSome) := by
  refine ⟨rfl, ?_, ?_, ?_, ?_, ?_, ?_, fun hwf => traverse_terminates bvh f hwf⟩
  · intro fuel st ct ci hst
    simp [Bvh2.traverse, hst]
  · intro hbvh fuel ct ci
    subst hbvh
    simp [Bvh2.traverse, Bvh2.new_traversal]
  · intro fuel st ct ci i rest node hst hnode hskip
    simp only [Bvh2.traverse, hst, hnode]
    rw [if_pos hskip]
  · intro fuel st ct ci i rest node hst hnode hskip hleaf hhit
    simp only [Bvh2.traverse, hst, hnode]
    rw [if_neg hskip, if_pos hleaf, if_pos hhit]
  · intro fuel st ct ci i rest node hst hnode hskip hleaf hmiss
    simp only [Bvh2.traverse, hst, hnode]
    rw [if_neg hskip, if_pos hleaf, if_neg hmiss]
  · intro fuel st ct ci i rest node hst hnode hskip hleaf
    simp only [Bvh2.traverse, hst, hnode]
    rw [if_neg hskip, if_neg hleaf]

/-- A three-node tree for exercising the traversal: an internal root whose
children are two leaves. -/
def c5_bvh : List Bvh2Node :=
  [⟨⟨⟨0, 0, 0⟩, ⟨2, 1, 1⟩⟩, 1⟩,
   ⟨⟨⟨0, 0, 0⟩, ⟨1, 1, 1⟩⟩, -1⟩,
   ⟨⟨⟨1, 0, 0⟩, ⟨2, 1, 1⟩⟩, -2⟩]

def c5_ray : Ray := ⟨Vec3.zero, ⟨1, 0, 0⟩, ⟨1, 0, 0⟩, 0, ⊤⟩

def c5_f : Ray → ℕ → WithTop ℚ := fun _ _ => ⊤

theorem claim_C5_witness :
    Bvh2.traverse c5_bvh c5_f (0 + 1) ⟨[], c5_ray⟩ ⊤ 0 =
      some (false, ⟨[], c5_ray⟩, ⊤, 0) ∧
    (Bvh2.traverse c5_bvh c5_f 28 (Bvh2.new_traversal c5_bvh c5_ray) ⊤ 0).isSome :=
  ⟨(claim_C5_resumable_traversal c5_bvh c5_f c5_ray).2.1 0 ⟨[], c5_ray⟩ ⊤ 0 rfl,
   (claim_C5_resumable_traversal c5_bvh c5_f c5_ray).2.2.2.2.2.2.2
     (by decide) 28 (Bvh2.new_traversal c5_bvh c5_ray) ⊤ 0 (by decide) (by decide)⟩

/-- Replace a ray's `tmin`, keeping every other field. -/
def Ray.set_tmin (r : Ray) (t : ℚ) : Ray := { r with tmin := t }

def Traversal.set_tmin (st : Traversal) (t : ℚ) : Traversal :=
  { st with ray := st.ray.set_tmin t }

theorem set_tmin_stack (st : Traversal) (t : ℚ) :
    (st.set_tmin t).stack = st.stack := rfl

theorem set_tmin_ray (st : Traversal) (t : ℚ) :
    (st.set_tmin t).ray = st.ray.set_tmin t := rfl

theorem ray_set_tmin_tmax (r : Ray) (t : ℚ) : (r.set_tmin t).tmax = r.tmax := rfl

theorem intersect_ray_set_tmin (a : Aabb) (r : Ray) (t : ℚ) :
    a.intersect_ray (r.set_tmin t) = a.intersect_ray r := rfl

/-- The traversal never reads `tmin`: running it from a state whose ray has
`tmin` replaced gives the same outcome, with the returned ray's `tmin`
replaced the same way. -/
theorem traverse_set_tmin (bvh : List Bvh2Node) (f : Ray → ℕ → WithTop ℚ)
    (t : ℚ) (hf : ∀ r p, f (r.set_tmin t) p = f r p) :
    ∀ fuel st ct ci,
      Bvh2.traverse bvh f fuel (st.set_tmin t) ct ci =
        (Bvh2.traverse bvh f fuel st ct ci).map
          (fun q => (q.1, (q.2.1).set_tmin t, q.2.2)) := by
  intro fuel
  induction fuel with
  | zero => intro st ct ci; rfl
  | succ fuel ih =>
    intro st ct ci
    match hst : st.stack with
    | [] =>
      simp only [Bvh2.traverse, set_tmin_stack, hst]
      rfl
    | i :: rest =>
      cases hnode : bvh[i]? with
      | none =>
        simp only [Bvh2.traverse, set_tmin_stack, hst, hnode]
        rfl
      | some node =>
        simp only [Bvh2.traverse, set_tmin_stack, hst, hnode, set_tmin_ray,
          intersect_ray_set_tmin, ray_set_tmin_tmax, hf]
        by_cases hskip : node.aabb.intersect_ray st.ray ≥ st.ray.tmax
        · rw [if_pos hskip, if_pos hskip]
          exact ih { st with stack := rest } ct ci
        · rw [if_neg hskip, if_neg hskip]
          by_cases hleaf : node.index < 0
          · rw [if_pos hleaf, if_pos hleaf]
            by_cases hhit : f st.ray (-(node.index + 1)).toNat < st.ray.tmax
            · rw [if_pos hhit, if_pos hhit]
              rfl
            · rw [if_neg hhit, if_neg hhit]
              exact ih { st with stack := rest } ct ci
          · rw [if_neg hleaf, if_neg hleaf]
            exact ih { st with
              stack := (node.index.toNat + 1) :: node.index.toNat :: rest } ct ci

/-- C10: `tmin` is never read.  `Aabb::intersect_ray` is invariant under
replacing `ray.tmin`; it returns the slab entry distance whenever the slab
interval is non-empty and the exit distance is non-negative (the comparison
is against `0`, not `tmin`); a leaf hit strictly closer than `tmin` is
still accepted and recorded by `traverse` as long as its `t` is below
`ray.tmax`; and the whole traversal is invariant under replacing `tmin`
(provided the user intersection callback is), up to the `tmin` field of
the returned ray. -/
theorem claim_C10_tmin_unread (bvh : List Bvh2Node)
    (f : Ray → ℕ → WithTop ℚ) (t : ℚ) :
    (∀ a r, Aabb.intersect_ray a (r.set_tmin t) = Aabb.intersect_ray a r) ∧
    (∀ a r, slab_exit a r ≥ slab_entry a r ∧ slab_exit a r ≥ 0 →
      Aabb.intersect_ray a r = ((slab_entry a r : ℚ) : WithTop ℚ)) ∧
    (∀ fuel st ct ci i rest node, st.stack = i :: rest → bvh[i]? = some node →
      ¬ node.aabb.intersect_ray st.ray ≥ st.ray.tmax → node.index < 0 →
      f st.ray (-(node.index + 1)).toNat < ((st.ray.tmin : ℚ) : WithTop ℚ) →
      f st.ray (-(node.index + 1)).toNat < st.ray.tmax →
      Bvh2.traverse bvh f (fuel + 1) st ct ci =
        some (true,
          { stack := rest,
            ray := { st.ray with tmax := f st.ray (-(node.index + 1)).toNat } },
          f st.ray (-(node.index + 1)).toNat, (-(node.index + 1)).toNat)) ∧
    ((∀ r p, f (r.set_tmin t) p = f r p) →
      ∀ fuel st ct ci,
        Bvh2.traverse bvh f fuel (st.set_tmin t) ct ci =
          (Bvh2.traverse bvh f fuel st ct ci).map
            (fun q => (q.1, (q.2.1).set_tmin t, q.2.2))) := by
  refine ⟨fun a r => rfl, ?_, ?_, fun hf => traverse_set_tmin bvh f t hf⟩
  · intro a r h
    simp only [Aabb.intersect_ray, if_pos h]
  · intro fuel st ct ci i rest node hst hnode hskip hleaf _ hhit
    simp only [Bvh2.traverse, hst, hnode]
    rw [if_neg hskip, if_pos hleaf, if_pos hhit]

def c10_box : Aabb := ⟨⟨0, 0, 0⟩, ⟨1, 1, 1⟩⟩

/-- A ray entering `c10_box` at `t = 1` but carrying `tmin = 5`. -/
def c10_ray : Ray := ⟨⟨-1, -1, -1⟩, ⟨1, 1, 1⟩, ⟨1, 1, 1⟩, 5, ⊤⟩

def c10_leaf : Bvh2Node := ⟨c10_box, -1⟩

def c10_f : Ray → ℕ → WithTop ℚ := fun _ _ => ((0 : ℚ) : WithTop ℚ)

theorem claim_C10_witness :
    Aabb.intersect_ray c10_box c10_ray = ((slab_entry c10_box c10_ray : ℚ) : WithTop ℚ) ∧
    Bvh2.traverse [c10_leaf] c10_f (0 + 1) ⟨[0], c10_ray⟩ ⊤ 0 =
      some (true, ⟨[], { c10_ray with tmax := c10_f c10_ray 0 }⟩, c10_f c10_ray 0, 0) ∧
    Bvh2.traverse [c10_leaf] c10_f 2 (Traversal.set_tmin ⟨[], c10_ray⟩ 7) ⊤ 0 =
      (Bvh2.traverse [c10_leaf] c10_f 2 ⟨[], c10_ray⟩ ⊤ 0).map
        (fun q => (q.1, (q.2.1).set_tmin 7, q.2.2)) := by
  refine ⟨(claim_C10_tmin_unread [c10_leaf] c10_f 7).2.1 c10_box c10_ray ?_,
    (claim_C10_tmin_unread [c10_leaf] c10_f 7).2.2.1 0 ⟨[0], c10_ray⟩ ⊤ 0 0 [] c10_leaf
      rfl rfl ?_ (by decide) ?_ ?_,
    (claim_C10_tmin_unread [c10_leaf] c10_f 7).2.2.2 (fun r p => rfl) 2 ⟨[], c10_ray⟩ ⊤ 0⟩
  · constructor <;>
      norm_num [slab_entry, slab_exit, slab_t1, slab_t2, c10_box, c10_ray,
        Vec3.sub, Vec3.mul, Vec3.vmin, Vec3.vmax, Vec3.maxElem, Vec3.minElem]
  · have h1 : c10_leaf.aabb.intersect_ray c10_ray = ((1 : ℚ) : WithTop ℚ) := by
      rw [Aabb.intersect_ray, if_pos]
      · norm_num [slab_entry, slab_t1, slab_t2, c10_box, c10_ray, c10_leaf,
          Vec3.sub, Vec3.mul, Vec3.vmin, Vec3.maxElem]
      · constructor <;>
          norm_num [slab_entry, slab_exit, slab_t1, slab_t2, c10_box, c10_ray,
            c10_leaf, Vec3.sub, Vec3.mul, Vec3.vmin, Vec3.vmax, Vec3.maxElem,
            Vec3.minElem]
    intro hge
    rw [h1] at hge
    exact absurd hge (by decide)
  · decide
  · decide

/-! ### Morton encoding (`morton.rs`)

`split_by_3_u64` spreads the low 21 bits of its argument to every third bit
of a 64-bit word through five shift-or-mask stages (`morton.rs` lines
11-19); each stage's `u64` shift is modelled with an explicit `% 2 ^ 64`.
`morton_encode_u64` (lines 21-23) interleaves three such spread words.
The `testBit` characterisation below is the key lemma: output bit `i` of
the spread is input bit `i / 3` when `i ≡ 0 [MOD 3]` and `i ≤ 60`, and `0`
otherwise. -/

/-- One shift-or-mask stage of `split_by_3_u64`: `(v | (v << s)) & m` in
`u64` arithmetic. -/
def s3_stage (v s m : ℕ) : ℕ := (v ||| (v <<< s) % 2 ^ 64) &&& m

def split_by_3_u64 (a : ℕ) : ℕ :=
  s3_stage (s3_stage (s3_stage (s3_stage (s3_stage (a &&& 0x1fffff)
    32 0x1f00000000ffff) 16 0x1f0000ff0000ff) 8 0x100f00f00f00f00f)
    4 0x10c30c30c30c30c3) 2 0x1249249249249249

theorem testBit_mod64 (x j : ℕ) : (x % 18446744073709551616).testBit j =
    (decide (j < 64) && x.testBit j) := by
  rw [show (18446744073709551616 : ℕ) = 2 ^ 64 from by norm_num, Nat.testBit_mod_two_pow]

theorem testBit_M0 (i : ℕ) : Nat.testBit 2097151 i = decide (i < 21) := by
  rw [show (2097151 : ℕ) = 2 ^ 21 - 1 from by norm_num, Nat.testBit_two_pow_sub_one]

theorem testBit_M1 (i : ℕ) : Nat.testBit 8725724278095871 i =
    (decide (i < 16) || decide (48 ≤ i) && decide (i - 48 < 5)) := by
  rw [show (8725724278095871 : ℕ) = (2^16-1) ||| ((2^5-1) <<< 48) from by decide]
  simp only [Nat.testBit_or, Nat.testBit_shiftLeft, Nat.testBit_two_pow_sub_one]

theorem testBit_M2 (i : ℕ) : Nat.testBit 8725728556220671 i =
    (decide (i < 8) || decide (24 ≤ i) && decide (i - 24 < 8) ||
     decide (48 ≤ i) && decide (i - 48 < 5)) := by
  rw [show (8725728556220671 : ℕ) = (2^8-1) ||| ((2^8-1) <<< 24) ||| ((2^5-1) <<< 48) from by decide]
  simp only [Nat.testBit_or, Nat.testBit_shiftLeft, Nat.testBit_two_pow_sub_one, Bool.or_assoc]

theorem testBit_M3 (i : ℕ) : Nat.testBit 1157144660301377551 i =
    (decide (i < 4) || decide (12 ≤ i) && decide (i - 12 < 4) ||
     decide (24 ≤ i) && decide (i - 24 < 4) || decide (36 ≤ i) && decide (i - 36 < 4) ||
     decide (48 ≤ i) && decide (i - 48 < 4) || decide (60 ≤ i) && decide (i - 60 < 1)) := by
  rw [show (1157144660301377551 : ℕ) = (2^4-1) ||| ((2^4-1) <<< 12) ||| ((2^4-1) <<< 24) |||
    ((2^4-1) <<< 36) ||| ((2^4-1) <<< 48) ||| ((2^1-1) <<< 60) from by decide]
  simp only [Nat.testBit_or, Nat.testBit_shiftLeft, Nat.testBit_two_pow_sub_one, Bool.or_assoc]

theorem testBit_M4 (i : ℕ) : Nat.testBit 1207822528635744451 i =
    (decide (i < 2) || decide (6 ≤ i) && decide (i - 6 < 2) ||
     decide (12 ≤ i) && decide (i - 12 < 2) || decide (18 ≤ i) && decide (i - 18 < 2) ||
     decide (24 ≤ i) && decide (i - 24 < 2) || decide (30 ≤ i) && decide (i - 30 < 2) ||
     decide (36 ≤ i) && decide (i - 36 < 2) || decide (42 ≤ i) && decide (i - 42 < 2) ||
     decide (48 ≤ i) && decide (i - 48 < 2) || decide (54 ≤ i) && decide (i - 54 < 2) ||
     decide (60 ≤ i) && decide (i - 60 < 1)) := by
  rw [show (1207822528635744451 : ℕ) = (2^2-1) ||| ((2^2-1) <<< 6) ||| ((2^2-1) <<< 12) |||
    ((2^2-1) <<< 18) ||| ((2^2-1) <<< 24) ||| ((2^2-1) <<< 30) ||| ((2^2-1) <<< 36) |||
    ((2^2-1) <<< 42) ||| ((2^2-1) <<< 48) ||| ((2^2-1) <<< 54) ||| ((2^1-1) <<< 60) from by decide]
  simp only [Nat.testBit_or, Nat.testBit_shiftLeft, Nat.testBit_two_pow_sub_one, Bool.or_assoc]

theorem testBit_M5 (i : ℕ) : Nat.testBit 1317624576693539401 i =
    (decide (i < 1) || decide (3 ≤ i) && decide (i - 3 < 1) ||
     decide (6 ≤ i) && decide (i - 6 < 1) || decide (9 ≤ i) && decide (i - 9 < 1) ||
     decide (12 ≤ i) && decide (i - 12 < 1) || decide (15 ≤ i) && decide (i - 15 < 1) ||
     decide (18 ≤ i) && decide (i - 18 < 1) || decide (21 ≤ i) && decide (i - 21 < 1) ||
     decide (24 ≤ i) && decide (i - 24 < 1) || decide (27 ≤ i) && decide (i - 27 < 1) ||
     decide (30 ≤ i) && decide (i - 30 < 1) || decide (33 ≤ i) && decide (i - 33 < 1) ||
     decide (36 ≤ i) && decide (i - 36 < 1) || decide (39 ≤ i) && decide (i - 39 < 1) ||
     decide (42 ≤ i) && decide (i - 42 < 1) || decide (45 ≤ i) && decide (i - 45 < 1) ||
     decide (48 ≤ i) && decide (i - 48 < 1) || decide (51 ≤ i) && decide (i - 51 < 1) ||
     decide (54 ≤ i) && decide (i - 54 < 1) || decide (57 ≤ i) && decide (i - 57 < 1) ||
     decide (60 ≤ i) && decide (i - 60 < 1)) := by
  rw [show (1317624576693539401 : ℕ) = (2^1-1) ||| ((2^1-1) <<< 3) ||| ((2^1-1) <<< 6) |||
    ((2^1-1) <<< 9) ||| ((2^1-1) <<< 12) ||| ((2^1-1) <<< 15) ||| ((2^1-1) <<< 18) |||
    ((2^1-1) <<< 21) ||| ((2^1-1) <<< 24) ||| ((2^1-1) <<< 27) ||| ((2^1-1) <<< 30) |||
    ((2^1-1) <<< 33) ||| ((2^1-1) <<< 36) ||| ((2^1-1) <<< 39) ||| ((2^1-1) <<< 42) |||
    ((2^1-1) <<< 45) ||| ((2^1-1) <<< 48) ||| ((2^1-1) <<< 51) ||| ((2^1-1) <<< 54) |||
    ((2^1-1) <<< 57) ||| ((2^1-1) <<< 60) from by decide]
  simp only [Nat.testBit_or, Nat.testBit_shiftLeft, Nat.testBit_two_pow_sub_one, Bool.or_assoc]

set_option maxHeartbeats 3200000 in
theorem split_testBit (a i : ℕ) :
    (split_by_3_u64 a).testBit i = (decide (i % 3 = 0 ∧ i ≤ 60) && a.testBit (i / 3)) := by
  by_cases hi : i < 61
  · interval_cases i <;>
      simp [-Nat.testBit_zero, split_by_3_u64, s3_stage, testBit_mod64, testBit_M0, testBit_M1,
        testBit_M2, testBit_M3, testBit_M4, testBit_M5, Nat.testBit_or, Nat.testBit_and,
        Nat.testBit_shiftLeft]
  · have hb : split_by_3_u64 a < 2 ^ 61 := by
      have h1 : split_by_3_u64 a ≤ 1317624576693539401 := Nat.and_le_right
      omega
    rw [Nat.testBit_lt_two_pow (lt_of_lt_of_le hb (Nat.pow_le_pow_right (by norm_num) (by omega)))]
    have hno : ¬ (i % 3 = 0 ∧ i ≤ 60) := by omega
    simp [hno]

def morton_encode_u64 (x y z : ℕ) : ℕ :=
  split_by_3_u64 x ||| split_by_3_u64 y <<< 1 ||| split_by_3_u64 z <<< 2

theorem morton_testBit (x y z j : ℕ) :
    ((morton_encode_u64 x y z).testBit j = true) ↔
      (j % 3 = 0 ∧ j ≤ 60 ∧ x.testBit (j / 3) = true) ∨
      (j % 3 = 1 ∧ j ≤ 61 ∧ y.testBit (j / 3) = true) ∨
      (j % 3 = 2 ∧ j ≤ 62 ∧ z.testBit (j / 3) = true) := by
  simp only [morton_encode_u64, Nat.testBit_or, Nat.testBit_shiftLeft, split_testBit,
    Bool.or_eq_true, Bool.and_eq_true, decide_eq_true_eq]
  constructor
  · rintro ((⟨⟨h1, h2⟩, h3⟩ | ⟨h0, ⟨h1, h2⟩, h3⟩) | ⟨h0, ⟨h1, h2⟩, h3⟩)
    · exact Or.inl ⟨h1, h2, h3⟩
    · have he : (j - 1) / 3 = j / 3 := by omega
      rw [he] at h3
      exact Or.inr (Or.inl ⟨by omega, by omega, h3⟩)
    · have he : (j - 2) / 3 = j / 3 := by omega
      rw [he] at h3
      exact Or.inr (Or.inr ⟨by omega, by omega, h3⟩)
  · rintro (⟨h1, h2, h3⟩ | ⟨h1, h2, h3⟩ | ⟨h1, h2, h3⟩)
    · exact Or.inl (Or.inl ⟨⟨h1, h2⟩, h3⟩)
    · have he : (j - 1) / 3 = j / 3 := by omega
      refine Or.inl (Or.inr ⟨by omega, ⟨by omega, by omega⟩, ?_⟩)
      rw [he]
      exact h3
    · have he : (j - 2) / 3 = j / 3 := by omega
      refine Or.inr ⟨by omega, ⟨by omega, by omega⟩, ?_⟩
      rw [he]
      exact h3

theorem exists_highest_diff : ∀ n m : ℕ, m < n →
    ∃ i, m.testBit i = false ∧ n.testBit i = true ∧
      ∀ j, i < j → m.testBit j = n.testBit j := by
  intro n
  induction n using Nat.strong_induction_on with
  | _ n ih =>
    intro m hmn
    by_cases h2 : m / 2 = n / 2
    · have hm0 : m % 2 = 0 := by omega
      have hn1 : n % 2 = 1 := by omega
      refine ⟨0, by simp [Nat.testBit_zero, hm0], by simp [Nat.testBit_zero, hn1], ?_⟩
      intro j hj
      obtain ⟨j', rfl⟩ : ∃ j', j = j' + 1 := ⟨j - 1, by omega⟩
      rw [Nat.testBit_add_one, Nat.testBit_add_one, h2]
    · have hlt : m / 2 < n / 2 := by omega
      obtain ⟨i, hif, hit, hij⟩ := ih (n / 2) (by omega) (m / 2) hlt
      refine ⟨i + 1, ?_, ?_, ?_⟩
      · rw [Nat.testBit_add_one]; exact hif
      · rw [Nat.testBit_add_one]; exact hit
      · intro j hj
        obtain ⟨j', rfl⟩ : ∃ j', j = j' + 1 := ⟨j - 1, by omega⟩
        rw [Nat.testBit_add_one, Nat.testBit_add_one]
        exact hij j' (by omega)

theorem bool_eq_of_iff {a b : Bool} (h : a = true ↔ b = true) : a = b := by
  cases a <;> cases b <;> simp_all

theorem morton_lt_of_x {x x' : ℕ} (y z : ℕ) (hx' : x' < 2 ^ 21) (h : x < x') :
    morton_encode_u64 x y z < morton_encode_u64 x' y z := by
  obtain ⟨i, hf, ht, hj⟩ := exists_highest_diff x' x h
  have hi21 : i < 21 := by
    by_contra hge
    have hz := Nat.testBit_lt_two_pow
      (lt_of_lt_of_le hx' (Nat.pow_le_pow_right (by norm_num) (by omega)) : x' < 2 ^ i)
    rw [hz] at ht
    exact Bool.false_ne_true ht
  apply Nat.lt_of_testBit (3 * i)
  · refine Bool.eq_false_iff.mpr fun hc => ?_
    rcases (morton_testBit x y z (3 * i)).mp hc with ⟨_, _, h3⟩ | ⟨h1, _, _⟩ | ⟨h1, _, _⟩
    · rw [show 3 * i / 3 = i from by omega, hf] at h3
      exact Bool.false_ne_true h3
    · omega
    · omega
  · refine (morton_testBit x' y z (3 * i)).mpr (Or.inl ⟨by omega, by omega, ?_⟩)
    rwa [show 3 * i / 3 = i from by omega]
  · intro j hj3
    apply bool_eq_of_iff
    rw [morton_testBit, morton_testBit]
    constructor
    · rintro (⟨h1, h2, h3⟩ | h | h)
      · rw [hj (j / 3) (by omega)] at h3
        exact Or.inl ⟨h1, h2, h3⟩
      · exact Or.inr (Or.inl h)
      · exact Or.inr (Or.inr h)
    · rintro (⟨h1, h2, h3⟩ | h | h)
      · rw [← hj (j / 3) (by omega)] at h3
        exact Or.inl ⟨h1, h2, h3⟩
      · exact Or.inr (Or.inl h)
      · exact Or.inr (Or.inr h)

theorem morton_lt_of_y (x : ℕ) {y y' : ℕ} (z : ℕ) (hy' : y' < 2 ^ 21) (h : y < y') :
    morton_encode_u64 x y z < morton_encode_u64 x y' z := by
  obtain ⟨i, hf, ht, hj⟩ := exists_highest_diff y' y h
  have hi21 : i < 21 := by
    by_contra hge
    have hz := Nat.testBit_lt_two_pow
      (lt_of_lt_of_le hy' (Nat.pow_le_pow_right (by norm_num) (by omega)) : y' < 2 ^ i)
    rw [hz] at ht
    exact Bool.false_ne_true ht
  apply Nat.lt_of_testBit (3 * i + 1)
  · refine Bool.eq_false_iff.mpr fun hc => ?_
    rcases (morton_testBit x y z (3 * i + 1)).mp hc with ⟨h1, _, _⟩ | ⟨_, _, h3⟩ | ⟨h1, _, _⟩
    · omega
    · rw [show (3 * i + 1) / 3 = i from by omega, hf] at h3
      exact Bool.false_ne_true h3
    · omega
  · refine (morton_testBit x y' z (3 * i + 1)).mpr
      (Or.inr (Or.inl ⟨by omega, by omega, ?_⟩))
    rwa [show (3 * i + 1) / 3 = i from by omega]
  · intro j hj3
    apply bool_eq_of_iff
    rw [morton_testBit, morton_testBit]
    constructor
    · rintro (h | ⟨h1, h2, h3⟩ | h)
      · exact Or.inl h
      · rw [hj (j / 3) (by omega)] at h3
        exact Or.inr (Or.inl ⟨h1, h2, h3⟩)
      · exact Or.inr (Or.inr h)
    · rintro (h | ⟨h1, h2, h3⟩ | h)
      · exact Or.inl h
      · rw [← hj (j / 3) (by omega)] at h3
        exact Or.inr (Or.inl ⟨h1, h2, h3⟩)
      · exact Or.inr (Or.inr h)

theorem morton_lt_of_z (x y : ℕ) {z z' : ℕ} (hz' : z' < 2 ^ 21) (h : z < z') :
    morton_encode_u64 x y z < morton_encode_u64 x y z' := by
  obtain ⟨i, hf, ht, hj⟩ := exists_highest_diff z' z h
  have hi21 : i < 21 := by
    by_contra hge
    have hzz := Nat.testBit_lt_two_pow
      (lt_of_lt_of_le hz' (Nat.pow_le_pow_right (by norm_num) (by omega)) : z' < 2 ^ i)
    rw [hzz] at ht
    exact Bool.false_ne_true ht
  apply Nat.lt_of_testBit (3 * i + 2)
  · refine Bool.eq_false_iff.mpr fun hc => ?_
    rcases (morton_testBit x y z (3 * i + 2)).mp hc with ⟨h1, _, _⟩ | ⟨h1, _, _⟩ | ⟨_, _, h3⟩
    · omega
    · omega
    · rw [show (3 * i + 2) / 3 = i from by omega, hf] at h3
      exact Bool.false_ne_true h3
  · refine (morton_testBit x y z' (3 * i + 2)).mpr
      (Or.inr (Or.inr ⟨by omega, by omega, ?_⟩))
    rwa [show (3 * i + 2) / 3 = i from by omega]
  · intro j hj3
    apply bool_eq_of_iff
    rw [morton_testBit, morton_testBit]
    constructor
    · rintro (h | h | ⟨h1, h2, h3⟩)
      · exact Or.inl h
      · exact Or.inr (Or.inl h)
      · rw [hj (j / 3) (by omega)] at h3
        exact Or.inr (Or.inr ⟨h1, h2, h3⟩)
    · rintro (h | h | ⟨h1, h2, h3⟩)
      · exact Or.inl h
      · exact Or.inr (Or.inl h)
      · rw [← hj (j / 3) (by omega)] at h3
        exact Or.inr (Or.inr ⟨h1, h2, h3⟩)

/-- C9: Morton encoding is strictly monotone per axis.  For 21-bit
quantised coordinates, if two points agree on two of their three
coordinates then `morton_encode_u64` orders their codes exactly as the
varying coordinate orders the points. -/
theorem claim_C9_morton_monotone (xa ya za xb yb zb : ℕ)
    (ha : xa < 2 ^ 21 ∧ ya < 2 ^ 21 ∧ za < 2 ^ 21)
    (hb : xb < 2 ^ 21 ∧ yb < 2 ^ 21 ∧ zb < 2 ^ 21) :
    (ya = yb ∧ za = zb →
      (morton_encode_u64 xa ya za < morton_encode_u64 xb yb zb ↔ xa < xb)) ∧
    (xa = xb ∧ za = zb →
      (morton_encode_u64 xa ya za < morton_encode_u64 xb yb zb ↔ ya < yb)) ∧
    (xa = xb ∧ ya = yb →
      (morton_encode_u64 xa ya za < morton_encode_u64 xb yb zb ↔ za < zb)) := by
  refine ⟨?_, ?_, ?_⟩
  · rintro ⟨rfl, rfl⟩
    constructor
    · intro hlt
      rcases lt_trichotomy xa xb with h | h | h
      · exact h
      · subst h; exact absurd hlt (lt_irrefl _)
      · exact absurd hlt (not_lt.mpr (le_of_lt (morton_lt_of_x ya za ha.1 h)))
    · exact fun h => morton_lt_of_x ya za hb.1 h
  · rintro ⟨rfl, rfl⟩
    constructor
    · intro hlt
      rcases lt_trichotomy ya yb with h | h | h
      · exact h
      · subst h; exact absurd hlt (lt_irrefl _)
      · exact absurd hlt (not_lt.mpr (le_of_lt (morton_lt_of_y xa za ha.2.1 h)))
    · exact fun h => morton_lt_of_y xa za hb.2.1 h
  · rintro ⟨rfl, rfl⟩
    constructor
    · intro hlt
      rcases lt_trichotomy za zb with h | h | h
      · exact h
      · subst h; exact absurd hlt (lt_irrefl _)
      · exact absurd hlt (not_lt.mpr (le_of_lt (morton_lt_of_z xa ya ha.2.2 h)))
    · exact fun h => morton_lt_of_z xa ya hb.2.2 h

theorem claim_C9_witness :
    (morton_encode_u64 1 5 9 < morton_encode_u64 2 5 9 ↔ (1 : ℕ) < 2) ∧
    (morton_encode_u64 4 1 9 < morton_encode_u64 4 7 9 ↔ (1 : ℕ) < 7) ∧
    (morton_encode_u64 4 5 3 < morton_encode_u64 4 5 2 ↔ (3 : ℕ) < 2) :=
  ⟨(claim_C9_morton_monotone 1 5 9 2 5 9 (by norm_num) (by norm_num)).1 ⟨rfl, rfl⟩,
   (claim_C9_morton_monotone 4 1 9 4 7 9 (by norm_num) (by norm_num)).2.1 ⟨rfl, rfl⟩,
   (claim_C9_morton_monotone 4 5 3 4 5 2 (by norm_num) (by norm_num)).2.2 ⟨rfl, rfl⟩⟩
